import Mathlib

/-! # The quoter of `core/quote.go`

A shallow embedding of `Quote`, `quoteContext.extend` and `quoteWith`, and the
properties of the read-back (value to term) direction of normalisation by
evaluation that the specification states about them.

Conventions of the embedding:

* Go `int` is a 64-bit two's-complement integer.  Counts and indices are `Int`s and
  every Go `+`, `-`, `++` is followed by `wrapInt`, the reduction to that range.
* A Go `map[string]V` is an association list with pairwise distinct keys; the order
  of the list is the order in which a `range` loop happens to visit the map.
* A Go function value stored in a `Value` (`Call1`, `Range`) is a code `c : κ`,
  and `call c` is the function it stands for.  Both `κ` and `call` are arbitrary.
* `quoteWith` recurses on the result of a closure call, so it need not return.  The
  embedding counts nested calls with a fuel argument; `QuotesTo` says that the Go
  function returns a given term.
-/

namespace Core

/-! ## Go `int` -/

/-- Width in bits of the Go type `int`. -/
def intBits : Nat := 64

/-- Reduction of a mathematical integer to the range of `int`
(two's-complement wrap-around). -/
def wrapInt (x : Int) : Int :=
  (x + 2 ^ (intBits - 1)) % 2 ^ intBits - 2 ^ (intBits - 1)

/-- Go `a + b` on `int`. -/
def goAdd (a b : Int) : Int := wrapInt (a + b)

/-- Go `a - b` on `int`. -/
def goSub (a b : Int) : Int := wrapInt (a - b)

/-- The values an `int` can hold. -/
def InIntRange (x : Int) : Prop := -(2 ^ 63) ≤ x ∧ x < 2 ^ 63

instance (x : Int) : Decidable (InIntRange x) := by
  unfold InIntRange; exact inferInstance

/-! ## Go maps -/

/-- Go `m[k] = v` on a map held as an association list: the entry of `k` is
replaced in place, a new key is added. -/
def mapSet {V : Type} : List (String × V) → String → V → List (String × V)
  | [], k, v => [(k, v)]
  | (k', v') :: rest, k, v =>
    if k' = k then (k, v) :: rest else (k', v') :: mapSet rest k v

/-- Go `v, ok := m[k]`. -/
def mapGet {V : Type} : List (String × V) → String → Option V
  | [], _ => none
  | (k', v') :: rest, k => if k' = k then some v' else mapGet rest k

/-- The keys of a map, in iteration order. -/
def mapKeys {V : Type} (m : List (String × V)) : List String := m.map Prod.fst

/-! ## Quote contexts -/

/-- A quoteContext records how many binders of each variable name we have passed
(Go: `type quoteContext map[string]int`). -/
structure quoteContext where
  entries : List (String × Int)
  nodup : (mapKeys entries).Nodup

/-- Go `quoteContext{}`. -/
def quoteContext.empty : quoteContext := ⟨[], List.nodup_nil⟩

/-- Go `v, ok := q[name]`. -/
def quoteContext.lookup (q : quoteContext) (name : String) : Option Int :=
  mapGet q.entries name

/-- Go `q[name]`: the zero value for an absent key. -/
def quoteContext.get (q : quoteContext) (name : String) : Int :=
  (q.lookup name).getD 0

/-- Go `q[name] = v`. -/
def quoteContext.set (q : quoteContext) (name : String) (v : Int) : quoteContext :=
  ⟨mapSet q.entries name v, by
    have keys : ∀ m : List (String × Int), mapKeys (mapSet m name v) =
        if name ∈ mapKeys m then mapKeys m else mapKeys m ++ [name] := by
      intro m
      induction m with
      | nil => simp [mapSet, mapKeys]
      | cons e rest ih =>
        obtain ⟨k', v'⟩ := e
        simp only [mapKeys] at ih
        by_cases h : k' = name
        · subst h; simp [mapSet, mapKeys]
        · have h' : ¬ name = k' := fun e => h e.symm
          by_cases hm : name ∈ List.map Prod.fst rest <;>
            simp [mapSet, mapKeys, h, h', ih, hm]
    rw [keys]
    split
    · exact q.nodup
    · rename_i hk
      exact List.Nodup.append q.nodup (List.nodup_singleton name) (by simpa using hk)⟩

/-- Go:
```
func (q quoteContext) extend(name string) quoteContext {
	newCtx := make(quoteContext, len(q))
	for k, v := range q {
		newCtx[k] = v
	}
	newCtx[name]++
	return newCtx
}
``` -/
def quoteContext.extend (q : quoteContext) (name : String) : quoteContext :=
  let newCtx := q.entries.foldl (fun acc e => acc.set e.1 e.2) quoteContext.empty
  newCtx.set name (goAdd (newCtx.get name) 1)

/-! ## Quote contexts as Go maps on a heap -/

/-- The maps allocated so far.  A Go map value is a reference to its entries; here
the reference is the position of the entries in this list. -/
abbrev MapHeap := List (List (String × Int))

/-- Go `m[k] = v` for the map referenced by `m`. -/
def heapStore (h : MapHeap) (m : Nat) (k : String) (v : Int) : MapHeap :=
  h.set m (mapSet (h.getD m []) k v)

/-- Go `m[k]` for the map referenced by `m`. -/
def heapLoad (h : MapHeap) (m : Nat) (k : String) : Int :=
  (mapGet (h.getD m []) k).getD 0

/-- The method `extend` with its maps on the heap: `make` allocates the next free
reference, the loop reads the receiver `q` and stores into `newCtx`, `newCtx[name]++`
loads and stores `newCtx`, and the reference `newCtx` is returned with the heap the
call leaves behind.  The entries the loop visits are those `q` has when the loop
starts. -/
def extendOnHeap (h : MapHeap) (q : Nat) (name : String) : MapHeap × Nat :=
  let newCtx := h.length
  let h₁ := h ++ [[]]
  let h₂ := (h₁.getD q []).foldl (fun hh e => heapStore hh newCtx e.1 e.2) h₁
  let h₃ := heapStore h₂ newCtx name (goAdd (heapLoad h₂ newCtx name) 1)
  (h₃, newCtx)

/-! ## Terms -/

/-- Modelled from the spec: the declaration of `Universe` is not part of `quote.go`;
the universes are Type, Kind and Sort. -/
inductive Universe : Type where
  | Type_
  | Kind
  | Sort_
  deriving DecidableEq, Repr

/-- One piece of an interpolated text: a literal `Prefix` followed by an embedded
expression `Expr` (Go: `Chunk{Prefix, Expr}`, for terms and for values). -/
structure Chunk (E : Type) where
  Prefix : String
  Expr : E

/-- Modelled from the spec: the declaration of `Term` is not part of `quote.go`.  The
variants are the ones `quoteWith` builds, each with the fields `quoteWith` sets;
the payloads of the variants that are returned unchanged follow section 3 of the
specification (a name and an index for variables, a number for literals, the bit
pattern of a double). -/
inductive Term : Type where
  | Universe (u : Universe)
  | Builtin (name : String)
  | NaturalEven
  | NaturalFold
  | NaturalIsZero
  | NaturalOdd
  | NaturalShow
  | NaturalSubtract
  | NaturalToInteger
  | IntegerShow
  | IntegerToDouble
  | DoubleShow
  | FreeVar (Name : String) (Index : Int)
  | LocalVar (Name : String) (Index : Int)
  | BoundVar (Name : String) (Index : Int)
  | LambdaTerm (Label : String) (Typ : Term) (Body : Term)
  | PiTerm (Label : String) (Typ : Term) (Body : Term)
  | AppTerm (Fn : Term) (Arg : Term)
  | OpTerm (OpCode : Int) (L : Term) (R : Term)
  | NaturalLit (n : Nat)
  | DoubleLit (bits : Nat)
  | IntegerLit (i : Int)
  | BoolLit (b : Bool)
  | EmptyList (Typ : Term)
  | NonEmptyList (elems : List Term)
  | TextLitTerm (Chunks : List (Chunk Term)) (Suffix : String)
  | IfTerm (Cond : Term) (T : Term) (F : Term)
  | Some (Val : Term)
  | RecordType (fields : List (String × Term))
  | RecordLit (fields : List (String × Term))
  | Assert ( Annotation : Term)

/-! ## Values -/

/-- Modelled from the spec: the declaration of `Value` is not part of `quote.go`.
The variants are the cases of the type switch in `quoteWith`, each with the fields
`quoteWith` reads; `Call1` and `Range` hold the code of a closure.  The contents of
the five variants that `quoteWith` does not look into are a stand-in.  `other` is
any implementation of the interface `Value` that the type switch does not list. -/
inductive Value (κ : Type) : Type where
  | Universe (u : Universe)
  | Builtin (name : String)
  | naturalEvenVal
  | naturalFoldVal
  | naturalIsZeroVal
  | naturalOddVal
  | naturalShowVal
  | naturalSubtractVal
  | naturalToIntegerVal
  | integerShowVal
  | integerToDoubleVal
  | doubleShowVal
  | FreeVar (Name : String) (Index : Int)
  | LocalVar (Name : String) (Index : Int)
  | QuoteVar (Name : String) (Index : Int)
  | LambdaValue (Label : String) (Domain : Value κ) (Call1 : κ)
  | PiValue (Label : String) (Domain : Value κ) (Range : κ)
  | AppValue (Fn : Value κ) (Arg : Value κ)
  | OpValue (OpCode : Int) (L : Value κ) (R : Value κ)
  | NaturalLit (n : Nat)
  | DoubleLit (bits : Nat)
  | IntegerLit (i : Int)
  | BoolLit (b : Bool)
  | EmptyListVal (Typ : Value κ)
  | NonEmptyListVal (elems : List (Value κ))
  | TextLitVal (Chunks : List (Chunk (Value κ))) (Suffix : String)
  | IfVal (Cond : Value κ) (T : Value κ) (F : Value κ)
  | SomeVal (Val : Value κ)
  | RecordTypeVal (fields : List (String × Value κ))
  | RecordLitVal (fields : List (String × Value κ))
  | ToMapVal (Record : Value κ)
  | FieldVal (Record : Value κ) (FieldName : String)
  | ProjectVal (Record : Value κ) (FieldNames : List String)
  | UnionTypeVal (alternatives : List (String × Value κ))
  | MergeVal (Handler : Value κ) (Union : Value κ)
  | AssertVal ( Annotation : Value κ)
  | other (typeName : String)

/-- Why a call of `quoteWith` yields no term. -/
inductive QuoteErr : Type where
  | panic (msg : String)
  | outOfFuel
  deriving DecidableEq, Repr

/-! ## The quoter -/

section Quoter

variable {κ : Type}

/-- Go:
```
l := NonEmptyList{}
for _, e := range v {
	l = append(l, quoteWith(ctx, e))
}
```
with `q` for `quoteWith(ctx, ·)` and `l` the list built so far. -/
def quoteElems (q : Value κ → Except QuoteErr Term) :
    List (Value κ) → List Term → Except QuoteErr (List Term)
  | [], l => .ok l
  | e :: rest, l =>
    match q e with
    | .ok t => quoteElems q rest (l ++ [t])
    | .error err => .error err

/-- Go:
```
var newChunks Chunks
for _, chunk := range v.Chunks {
	newChunks = append(newChunks, Chunk{
		Prefix: chunk.Prefix,
		Expr:   quoteWith(ctx, chunk.Expr),
	})
}
``` -/
def quoteChunks (q : Value κ → Except QuoteErr Term) :
    List (Chunk (Value κ)) → List (Chunk Term) → Except QuoteErr (List (Chunk Term))
  | [], newChunks => .ok newChunks
  | chunk :: rest, newChunks =>
    match q chunk.Expr with
    | .ok t => quoteChunks q rest (newChunks ++ [⟨chunk.Prefix, t⟩])
    | .error err => .error err

/-- Go:
```
rt := RecordType{}
for k, v := range v {
	rt[k] = quoteWith(ctx, v)
}
``` -/
def quoteFields (q : Value κ → Except QuoteErr Term) :
    List (String × Value κ) → List (String × Term) → Except QuoteErr (List (String × Term))
  | [], rt => .ok rt
  | (k, v) :: rest, rt =>
    match q v with
    | .ok t => quoteFields q rest (mapSet rt k t)
    | .error err => .error err

/-- The function `quoteWith` of `core/quote.go`.  `call c a` is the Go call `c(a)`
of a closure; the first call and every nested call of `quoteWith` use up one unit of
fuel, and a call that finds none left yields `outOfFuel`. -/
def quoteWith (call : κ → Value κ → Value κ) :
    Nat → quoteContext → Value κ → Except QuoteErr Term
  | 0, _, _ => .error .outOfFuel
  | fuel + 1, ctx, v =>
    match v with
    | .Universe u => .ok (.Universe u)
    | .Builtin name => .ok (.Builtin name)
    | .naturalEvenVal => .ok .NaturalEven
    | .naturalFoldVal => .ok .NaturalFold
    | .naturalIsZeroVal => .ok .NaturalIsZero
    | .naturalOddVal => .ok .NaturalOdd
    | .naturalShowVal => .ok .NaturalShow
    | .naturalSubtractVal => .ok .NaturalSubtract
    | .naturalToIntegerVal => .ok .NaturalToInteger
    | .integerShowVal => .ok .IntegerShow
    | .integerToDoubleVal => .ok .IntegerToDouble
    | .doubleShowVal => .ok .DoubleShow
    | .FreeVar name index => .ok (.FreeVar name index)
    | .LocalVar name index => .ok (.LocalVar name index)
    | .QuoteVar name index =>
      .ok (.BoundVar name (goSub (goSub (ctx.get name) index) 1))
    | .LambdaValue label domain call1 =>
      let bodyVal := call call1 (.QuoteVar label (ctx.get label))
      match quoteWith call fuel ctx domain with
      | .error err => .error err
      | .ok typ =>
        match quoteWith call fuel (ctx.extend label) bodyVal with
        | .error err => .error err
        | .ok body => .ok (.LambdaTerm label typ body)
    | .PiValue label domain range =>
      let bodyVal := call range (.QuoteVar label (ctx.get label))
      match quoteWith call fuel ctx domain with
      | .error err => .error err
      | .ok typ =>
        match quoteWith call fuel (ctx.extend label) bodyVal with
        | .error err => .error err
        | .ok body => .ok (.PiTerm label typ body)
    | .AppValue fn arg =>
      match quoteWith call fuel ctx fn with
      | .error err => .error err
      | .ok fn' =>
        match quoteWith call fuel ctx arg with
        | .error err => .error err
        | .ok arg' => .ok (.AppTerm fn' arg')
    | .OpValue opCode l r =>
      match quoteWith call fuel ctx l with
      | .error err => .error err
      | .ok l' =>
        match quoteWith call fuel ctx r with
        | .error err => .error err
        | .ok r' => .ok (.OpTerm opCode l' r')
    | .NaturalLit n => .ok (.NaturalLit n)
    | .DoubleLit bits => .ok (.DoubleLit bits)
    | .IntegerLit i => .ok (.IntegerLit i)
    | .BoolLit b => .ok (.BoolLit b)
    | .EmptyListVal typ =>
      match quoteWith call fuel ctx typ with
      | .error err => .error err
      | .ok typ' => .ok (.EmptyList typ')
    | .NonEmptyListVal elems =>
      match quoteElems (quoteWith call fuel ctx) elems [] with
      | .error err => .error err
      | .ok l => .ok (.NonEmptyList l)
    | .TextLitVal chunks suffix =>
      match quoteChunks (quoteWith call fuel ctx) chunks [] with
      | .error err => .error err
      | .ok newChunks => .ok (.TextLitTerm newChunks suffix)
    | .IfVal cond t f =>
      match quoteWith call fuel ctx cond with
      | .error err => .error err
      | .ok cond' =>
        match quoteWith call fuel ctx t with
        | .error err => .error err
        | .ok t' =>
          match quoteWith call fuel ctx f with
          | .error err => .error err
          | .ok f' => .ok (.IfTerm cond' t' f')
    | .SomeVal val =>
      match quoteWith call fuel ctx val with
      | .error err => .error err
      | .ok val' => .ok (.Some val')
    | .RecordTypeVal fields =>
      match quoteFields (quoteWith call fuel ctx) fields [] with
      | .error err => .error err
      | .ok rt => .ok (.RecordType rt)
    | .RecordLitVal fields =>
      match quoteFields (quoteWith call fuel ctx) fields [] with
      | .error err => .error err
      | .ok rt => .ok (.RecordLit rt)
    | .ToMapVal _ => .ok (.TextLitTerm [] "quote ToMapVal unimplemented")
    | .FieldVal _ _ => .ok (.TextLitTerm [] "FieldVal unimplemented")
    | .ProjectVal _ _ => .ok (.TextLitTerm [] "ProjectVal unimplemented")
    | .UnionTypeVal _ => .ok (.TextLitTerm [] "UnionTypeVal unimplemented")
    | .MergeVal _ _ => .ok (.TextLitTerm [] "MergeVal unimplemented")
    | .AssertVal annotation =>
      match quoteWith call fuel ctx annotation with
      | .error err => .error err
      | .ok annotation' => .ok (.Assert annotation')
    | .other _ => .error (.panic "unknown Value type")

/-- Quote(v) takes the Value v and turns it back into a Term
(Go: `return quoteWith(quoteContext{}, v)`). -/
def Quote (call : κ → Value κ → Value κ) (fuel : Nat) (v : Value κ) :
    Except QuoteErr Term :=
  quoteWith call fuel quoteContext.empty v

/-- The suffix of the placeholder text literal that `quoteWith` returns for each of
the five variants it does not implement (Go: `TextLitTerm{Suffix: "..."}` in the
cases `ToMapVal`, `FieldVal`, `ProjectVal`, `UnionTypeVal`, `MergeVal`); `none` for
every other value. -/
def unimplementedMarker : Value κ → Option String
  | .ToMapVal _ => some "quote ToMapVal unimplemented"
  | .FieldVal _ _ => some "FieldVal unimplemented"
  | .ProjectVal _ _ => some "ProjectVal unimplemented"
  | .UnionTypeVal _ => some "UnionTypeVal unimplemented"
  | .MergeVal _ _ => some "MergeVal unimplemented"
  | _ => none

/-- The Go call `quoteWith(ctx, v)` returns the term `t`. -/
def QuotesTo (call : κ → Value κ → Value κ) (ctx : quoteContext) (v : Value κ)
    (t : Term) : Prop :=
  ∃ fuel, quoteWith call fuel ctx v = .ok t

end Quoter

/-! ## A concrete family of closures -/

/-- Codes of a few Go closures, enough to write the values of small lambda terms:
the identity, a constant function, a function returning a lambda whose closure is
fixed, and a function returning a lambda whose closure returns the argument of the
enclosing call. -/
inductive Closure : Type where
  | identity
  | konst (v : Value Closure)
  | lamOf (label : String) (domain : Value Closure) (inner : Closure)
  | lamCapture (label : String) (domain : Value Closure)

/-- The Go function a `Closure` stands for. -/
def Closure.call : Closure → Value Closure → Value Closure
  | .identity, a => a
  | .konst v, _ => v
  | .lamOf label domain inner, _ => .LambdaValue label domain inner
  | .lamCapture label domain, a => .LambdaValue label domain (.konst a)

end Core

/-! # The node callbacks of `parser/parser.go`

`parseAtom`, `parseConst` and `parseNatural`.  A callback receives the nodes its
parser combinator matched; a node is any Go value (`parsec.ParsecNode` is the empty
interface).  A Go run-time panic is the `error` result. -/

namespace Parser

/-- A terminal of the scanner (Go: `parsec.Terminal`, of the library `goparsec`),
with the two fields the callbacks read.  `Name` is only compared with string
constants; `Value` is sliced at byte positions and read byte by byte, so it is held
as the bytes of the Go string. -/
structure Terminal where
  Name : String
  Value : List UInt8
  deriving DecidableEq

/-- Go: `type Comment struct { IsBlock bool; Value string }`. -/
structure Comment where
  IsBlock : Bool
  Value : List UInt8
  deriving DecidableEq

/-- Go: `type AtomNode struct { Value string; Comments []Comment }`. -/
structure AtomNode where
  Value : String
  Comments : List Comment
  deriving DecidableEq

/-- Modelled from the spec: the package `ast` is not among the sources; its
constants `ast.Type`, `ast.Kind` and `ast.Sort` are the three universes. -/
inductive Const : Type where
  | Type_
  | Kind
  | Sort_
  deriving DecidableEq

/-- A node (Go: `parsec.ParsecNode`, that is `interface{}`): the untyped `nil`, or a
value of one of the types the callbacks produce or test for, or a value of any other
type. -/
inductive ParsecNode : Type where
  | nil
  | terminal (t : Terminal)
  | atomNode (a : AtomNode)
  | comments (cs : List Comment)
  | uint64 (val : Nat)
  | string (s : List UInt8)
  | const (c : Const)
  | nodes (ns : List ParsecNode)
  | other (typeName : String)

/-- The run-time panics of the callbacks. -/
inductive Panic : Type where
  | indexOutOfRange
  | sliceBoundsOutOfRange
  | interfaceConversion
  deriving DecidableEq

/-- The two errors of `strconv.ParseUint` (`ErrSyntax`, `ErrRange`). -/
inductive NumError : Type where
  | ErrSyntax
  | ErrRange
  deriving DecidableEq

/-- The largest `uint64`. -/
def maxUint64 : Nat := 2 ^ 64 - 1

/-- The digit a byte stands for in `strconv.ParseUint`: `'0'..'9'` are 0 to 9,
`'a'..'z'` and `'A'..'Z'` are 10 to 35; no other byte is a digit. -/
def digitOf (c : UInt8) : Option Nat :=
  if 48 ≤ c.toNat ∧ c.toNat ≤ 57 then some (c.toNat - 48)
  else if 97 ≤ c.toNat ∧ c.toNat ≤ 122 then some (c.toNat - 97 + 10)
  else if 65 ≤ c.toNat ∧ c.toNat ≤ 90 then some (c.toNat - 65 + 10)
  else none

/-- The loop of `strconv.ParseUint` over the bytes of its argument, `n` being the
`uint64` read so far:
```
if d >= byte(base) { return 0, syntaxError(fnParseUint, s0) }
if n >= cutoff { return maxVal, rangeError(fnParseUint, s0) }
n *= uint64(base)
n1 := n + uint64(d)
if n1 < n || n1 > maxVal { return maxVal, rangeError(fnParseUint, s0) }
n = n1
``` -/
def parseUintLoop (base cutoff : Nat) : List UInt8 → Nat → Nat × Option NumError
  | [], n => (n, none)
  | c :: rest, n =>
    match digitOf c with
    | none => (0, some .ErrSyntax)
    | some d =>
      if d ≥ base then (0, some .ErrSyntax)
      else if n ≥ cutoff then (maxUint64, some .ErrRange)
      else
        let n' := (n * base) % 2 ^ 64
        let n1 := (n' + d) % 2 ^ 64
        if n1 < n' ∨ n1 > maxUint64 then (maxUint64, some .ErrRange)
        else parseUintLoop base cutoff rest n1

/-- Go's `strconv.ParseUint(s, base, 64)` for a base from 2 to 36, after the
implementation in the Go standard library (which is not part of the repository):
the empty string is a syntax error, `cutoff` is the smallest number such that
`cutoff*base > maxUint64`, and the result is the value and the error. -/
def ParseUint (s : List UInt8) (base : Nat) : Nat × Option NumError :=
  if s = [] then (0, some .ErrSyntax)
  else parseUintLoop base (maxUint64 / base + 1) s 0

/-- Go `s[k:]` on a string: a panic when `k` is beyond the end. -/
def sliceFrom (s : List UInt8) (k : Nat) : Except Panic (List UInt8) :=
  if k ≤ s.length then .ok (s.drop k) else .error .sliceBoundsOutOfRange

/-- Go:
```
func parseAtom(nodes []parsec.ParsecNode) parsec.ParsecNode {
	return &AtomNode{
		Value:    nodes[0].(*parsec.Terminal).Name,
		Comments: nodes[1].([]Comment),
	}
}
```
Both index expressions are evaluated, with their bounds checks, before the two type
assertions: a list of fewer than two nodes is an index panic whatever its node. -/
def parseAtom (nodes : List ParsecNode) : Except Panic ParsecNode :=
  match nodes with
  | [] => .error .indexOutOfRange
  | [_] => .error .indexOutOfRange
  | .terminal t :: .comments cs :: _ => .ok (.atomNode ⟨t.Name, cs⟩)
  | _ :: _ :: _ => .error .interfaceConversion

/-- Go:
```
func parseConst(ns []parsec.ParsecNode) parsec.ParsecNode {
	switch n := ns[0].(type) {
	case *AtomNode:
		switch n.Value {
		case "TYPE":
			return ast.Type
		case "KIND":
			return ast.Kind
		case "SORT":
			return ast.Sort
		}
	}
	return nil
}
``` -/
def parseConst (ns : List ParsecNode) : Except Panic ParsecNode :=
  match ns with
  | [] => .error .indexOutOfRange
  | .atomNode n :: _ =>
    if n.Value = "TYPE" then .ok (.const .Type_)
    else if n.Value = "KIND" then .ok (.const .Kind)
    else if n.Value = "SORT" then .ok (.const .Sort_)
    else .ok .nil
  | _ :: _ => .ok .nil

/-- Go:
```
func parseNatural(ns []parsec.ParsecNode) parsec.ParsecNode {
	if ns == nil || len(ns) < 1 {
		return nil
	}
	switch n := ns[0].(type) {
	case *parsec.Terminal:
		switch n.Name {
		case "DEC":
			val, _ := strconv.ParseUint(n.Value, 10, 64)
			return val
		case "OCT":
			val, _ := strconv.ParseUint(n.Value[1:], 8, 64)
			return val
		case "HEX":
			val, _ := strconv.ParseUint(n.Value[2:], 16, 64)
			return val
		}
	}
	return nil
}
``` -/
def parseNatural (ns : List ParsecNode) : Except Panic ParsecNode :=
  match ns with
  | [] => .ok .nil
  | .terminal n :: _ =>
    if n.Name = "DEC" then
      .ok (.uint64 (ParseUint n.Value 10).1)
    else if n.Name = "OCT" then
      match sliceFrom n.Value 1 with
      | .error p => .error p
      | .ok s => .ok (.uint64 (ParseUint s 8).1)
    else if n.Name = "HEX" then
      match sliceFrom n.Value 2 with
      | .error p => .error p
      | .ok s => .ok (.uint64 (ParseUint s 16).1)
    else .ok .nil
  | _ :: _ => .ok .nil

/-- The digits of a numeral read in a base, most significant first, `n` being the
value of the digits already read: the number the rest of the numeral brings it to,
or nothing when a byte is not a digit of the base. -/
def digitsValue (base : Nat) : List UInt8 → Nat → Option Nat
  | [], n => some n
  | c :: rest, n =>
    match digitOf c with
    | none => none
    | some d => if d < base then digitsValue base rest (n * base + d) else none

/-- The base-`base` value of a numeral, in the words of the specification of
`parseNatural`: the number that a non-empty string of digits of that base denotes. -/
def numeralValue (base : Nat) (s : List UInt8) : Option Nat :=
  if s = [] then none else digitsValue base s 0

end Parser

namespace Core

/-! ## Go `int` arithmetic -/

theorem wrapInt_of_inRange (x : Int) (h : InIntRange x) : wrapInt x = x := by
  unfold InIntRange at h
  unfold wrapInt intBits
  omega

theorem wrapInt_inRange (x : Int) : InIntRange (wrapInt x) := by
  unfold InIntRange wrapInt intBits
  omega

theorem wrapInt_sub_wrapInt (a b : Int) : wrapInt (wrapInt a - b) = wrapInt (a - b) := by
  unfold wrapInt intBits
  omega

theorem goSub_goSub (c i : Int) : goSub (goSub c i) 1 = wrapInt (c - i - 1) := by
  unfold goSub
  exact wrapInt_sub_wrapInt (c - i) 1

/-! ## Go maps -/

theorem mapGet_mapSet_same {V : Type} (m : List (String × V)) (k : String) (v : V) :
    mapGet (mapSet m k v) k = some v := by
  induction m with
  | nil => simp [mapSet, mapGet]
  | cons e rest ih =>
    obtain ⟨k', v'⟩ := e
    by_cases h : k' = k <;> simp [mapSet, mapGet, h, ih]

theorem mapGet_mapSet_other {V : Type} (m : List (String × V)) (k k₂ : String) (v : V)
    (hne : k₂ ≠ k) : mapGet (mapSet m k v) k₂ = mapGet m k₂ := by
  induction m with
  | nil => simp [mapSet, mapGet, hne.symm]
  | cons e rest ih =>
    obtain ⟨k', v'⟩ := e
    by_cases h : k' = k
    · subst h
      simp [mapSet, mapGet, hne.symm]
    · by_cases h₂ : k' = k₂
      · subst h₂; simp [mapSet, mapGet, h]
      · simp [mapSet, mapGet, h, h₂, ih]

theorem mapGet_eq_none_iff {V : Type} (m : List (String × V)) (k : String) :
    mapGet m k = none ↔ k ∉ mapKeys m := by
  induction m with
  | nil => simp [mapGet, mapKeys]
  | cons e rest ih =>
    obtain ⟨k', v'⟩ := e
    by_cases h : k' = k
    · subst h; simp [mapGet, mapKeys]
    · have h' : ¬ k = k' := fun e => h e.symm
      simp only [mapKeys] at ih
      simp [mapGet, mapKeys, h, h', ih]

/-! ## Quote contexts -/

theorem quoteContext.lookup_set_same (q : quoteContext) (k : String) (v : Int) :
    (q.set k v).lookup k = some v :=
  mapGet_mapSet_same q.entries k v

theorem quoteContext.lookup_set_other (q : quoteContext) (k k₂ : String) (v : Int)
    (hne : k₂ ≠ k) : (q.set k v).lookup k₂ = q.lookup k₂ :=
  mapGet_mapSet_other q.entries k k₂ v hne

/-- The copying loop of `extend`, started from any map `acc`: a key of the source
has the source's count, any other key keeps the count it has in `acc`. -/
theorem copyLoop_lookup (l : List (String × Int)) (hl : (mapKeys l).Nodup)
    (acc : quoteContext) (k : String) :
    (l.foldl (fun acc e => acc.set e.1 e.2) acc).lookup k =
      ((mapGet l k).orElse fun _ => acc.lookup k) := by
  induction l generalizing acc with
  | nil => simp [mapGet]
  | cons e rest ih =>
    obtain ⟨k', v'⟩ := e
    have hnd : (mapKeys rest).Nodup := by
      simp only [mapKeys, List.map_cons, List.nodup_cons] at hl
      exact hl.2
    have hk' : k' ∉ mapKeys rest := by
      simp only [mapKeys, List.map_cons, List.nodup_cons] at hl
      exact hl.1
    rw [List.foldl_cons, ih hnd]
    by_cases h : k' = k
    · subst h
      have hnone : mapGet rest k' = none := (mapGet_eq_none_iff rest k').2 hk'
      simp [mapGet, hnone, quoteContext.lookup_set_same]
    · have h' : k ≠ k' := fun e => h e.symm
      simp [mapGet, h, quoteContext.lookup_set_other _ _ _ _ h']

/-- The copy made by `extend` holds exactly the entries of the original. -/
theorem copy_lookup (q : quoteContext) (k : String) :
    (q.entries.foldl (fun acc e => acc.set e.1 e.2) quoteContext.empty).lookup k =
      q.lookup k := by
  rw [copyLoop_lookup q.entries q.nodup]
  unfold quoteContext.lookup
  cases mapGet q.entries k <;> simp [quoteContext.empty, mapGet]

theorem quoteContext.lookup_extend_same (q : quoteContext) (n : String) :
    (q.extend n).lookup n = some (goAdd (q.get n) 1) := by
  unfold quoteContext.extend
  simp only [quoteContext.lookup_set_same, quoteContext.get, copy_lookup]

theorem quoteContext.lookup_extend_other (q : quoteContext) (n m : String) (hne : m ≠ n) :
    (q.extend n).lookup m = q.lookup m := by
  unfold quoteContext.extend
  simp only [quoteContext.lookup_set_other _ _ _ _ hne, copy_lookup]

theorem quoteContext.get_extend_same (q : quoteContext) (n : String) :
    (q.extend n).get n = goAdd (q.get n) 1 := by
  simp [quoteContext.get, quoteContext.lookup_extend_same]

theorem quoteContext.get_extend_other (q : quoteContext) (n m : String) (hne : m ≠ n) :
    (q.extend n).get m = q.get m := by
  simp [quoteContext.get, quoteContext.lookup_extend_other q n m hne]

/-! ## More fuel does not change a result -/

section Fuel

variable {κ : Type}

theorem quoteElems_mono (q q' : Value κ → Except QuoteErr Term)
    (hq : ∀ v t, q v = .ok t → q' v = .ok t) (es : List (Value κ)) (l r : List Term)
    (h : quoteElems q es l = .ok r) : quoteElems q' es l = .ok r := by
  induction es generalizing l with
  | nil => simpa [quoteElems] using h
  | cons e rest ih =>
    simp only [quoteElems] at h ⊢
    cases he : q e with
    | error err => simp [he] at h
    | ok t =>
      rw [he] at h
      rw [hq e t he]
      exact ih _ h

theorem quoteChunks_mono (q q' : Value κ → Except QuoteErr Term)
    (hq : ∀ v t, q v = .ok t → q' v = .ok t) (cs : List (Chunk (Value κ)))
    (l r : List (Chunk Term))
    (h : quoteChunks q cs l = .ok r) : quoteChunks q' cs l = .ok r := by
  induction cs generalizing l with
  | nil => simpa [quoteChunks] using h
  | cons c rest ih =>
    simp only [quoteChunks] at h ⊢
    cases he : q c.Expr with
    | error err => simp [he] at h
    | ok t =>
      rw [he] at h
      rw [hq c.Expr t he]
      exact ih _ h

theorem quoteFields_mono (q q' : Value κ → Except QuoteErr Term)
    (hq : ∀ v t, q v = .ok t → q' v = .ok t) (fs : List (String × Value κ))
    (rt r : List (String × Term))
    (h : quoteFields q fs rt = .ok r) : quoteFields q' fs rt = .ok r := by
  induction fs generalizing rt with
  | nil => simpa [quoteFields] using h
  | cons f rest ih =>
    obtain ⟨k, v⟩ := f
    simp only [quoteFields] at h ⊢
    cases he : q v with
    | error err => simp [he] at h
    | ok t =>
      rw [he] at h
      rw [hq v t he]
      exact ih _ h

/-- A call that returns with some fuel returns the same term with one unit more. -/
theorem quoteWith_succ (call : κ → Value κ → Value κ) (n : Nat) :
    ∀ (ctx : quoteContext) (v : Value κ) (t : Term),
      quoteWith call n ctx v = .ok t → quoteWith call (n + 1) ctx v = .ok t := by
  induction n with
  | zero => intro ctx v t h; simp [quoteWith] at h
  | succ n ih =>
    intro ctx v t h
    cases v with
    | LambdaValue l d c =>
      rw [quoteWith] at h ⊢
      cases hd : quoteWith call n ctx d with
      | error err => simp [hd] at h
      | ok ty =>
        cases hb : quoteWith call n (ctx.extend l) (call c (.QuoteVar l (ctx.get l))) with
        | error err => simp [hd, hb] at h
        | ok b => simpa [hd, hb, ih _ _ _ hd, ih _ _ _ hb] using h
    | PiValue l d c =>
      rw [quoteWith] at h ⊢
      cases hd : quoteWith call n ctx d with
      | error err => simp [hd] at h
      | ok ty =>
        cases hb : quoteWith call n (ctx.extend l) (call c (.QuoteVar l (ctx.get l))) with
        | error err => simp [hd, hb] at h
        | ok b => simpa [hd, hb, ih _ _ _ hd, ih _ _ _ hb] using h
    | AppValue f a =>
      rw [quoteWith] at h ⊢
      cases hf : quoteWith call n ctx f with
      | error err => simp [hf] at h
      | ok f' =>
        cases ha : quoteWith call n ctx a with
        | error err => simp [hf, ha] at h
        | ok a' => simpa [hf, ha, ih _ _ _ hf, ih _ _ _ ha] using h
    | OpValue o l r =>
      rw [quoteWith] at h ⊢
      cases hl : quoteWith call n ctx l with
      | error err => simp [hl] at h
      | ok l' =>
        cases hr : quoteWith call n ctx r with
        | error err => simp [hl, hr] at h
        | ok r' => simpa [hl, hr, ih _ _ _ hl, ih _ _ _ hr] using h
    | EmptyListVal ty =>
      rw [quoteWith] at h ⊢
      cases hd : quoteWith call n ctx ty with
      | error err => simp [hd] at h
      | ok ty' => simpa [hd, ih _ _ _ hd] using h
    | NonEmptyListVal es =>
      rw [quoteWith] at h ⊢
      cases hd : quoteElems (quoteWith call n ctx) es [] with
      | error err => simp [hd] at h
      | ok l =>
        simpa [hd, quoteElems_mono _ (quoteWith call (n + 1) ctx) (ih ctx) es [] l hd] using h
    | TextLitVal cs sfx =>
      rw [quoteWith] at h ⊢
      cases hd : quoteChunks (quoteWith call n ctx) cs [] with
      | error err => simp [hd] at h
      | ok l =>
        simpa [hd, quoteChunks_mono _ (quoteWith call (n + 1) ctx) (ih ctx) cs [] l hd] using h
    | IfVal c a b =>
      rw [quoteWith] at h ⊢
      cases hc : quoteWith call n ctx c with
      | error err => simp [hc] at h
      | ok c' =>
        cases ha : quoteWith call n ctx a with
        | error err => simp [hc, ha] at h
        | ok a' =>
          cases hb : quoteWith call n ctx b with
          | error err => simp [hc, ha, hb] at h
          | ok b' =>
            simpa [hc, ha, hb, ih _ _ _ hc, ih _ _ _ ha, ih _ _ _ hb] using h
    | SomeVal x =>
      rw [quoteWith] at h ⊢
      cases hd : quoteWith call n ctx x with
      | error err => simp [hd] at h
      | ok x' => simpa [hd, ih _ _ _ hd] using h
    | RecordTypeVal fs =>
      rw [quoteWith] at h ⊢
      cases hd : quoteFields (quoteWith call n ctx) fs [] with
      | error err => simp [hd] at h
      | ok l =>
        simpa [hd, quoteFields_mono _ (quoteWith call (n + 1) ctx) (ih ctx) fs [] l hd] using h
    | RecordLitVal fs =>
      rw [quoteWith] at h ⊢
      cases hd : quoteFields (quoteWith call n ctx) fs [] with
      | error err => simp [hd] at h
      | ok l =>
        simpa [hd, quoteFields_mono _ (quoteWith call (n + 1) ctx) (ih ctx) fs [] l hd] using h
    | AssertVal x =>
      rw [quoteWith] at h ⊢
      cases hd : quoteWith call n ctx x with
      | error err => simp [hd] at h
      | ok x' => simpa [hd, ih _ _ _ hd] using h
    | _ => simp [quoteWith] at h ⊢ <;> exact h

/-- A call that returns with some fuel returns the same term with any larger fuel. -/
theorem quoteWith_mono (call : κ → Value κ → Value κ) {n m : Nat} (hnm : n ≤ m)
    {ctx : quoteContext} {v : Value κ} {t : Term}
    (h : quoteWith call n ctx v = .ok t) : quoteWith call m ctx v = .ok t := by
  induction hnm with
  | refl => exact h
  | step _ ih => exact quoteWith_succ call _ _ _ _ ih

/-- The result of a Go call, when there is one, is unique. -/
theorem QuotesTo.unique (call : κ → Value κ → Value κ) {ctx : quoteContext}
    {v : Value κ} {t t' : Term}
    (h : QuotesTo call ctx v t) (h' : QuotesTo call ctx v t') : t = t' := by
  obtain ⟨n, hn⟩ := h
  obtain ⟨m, hm⟩ := h'
  have h1 := quoteWith_mono call (Nat.le_max_left n m) hn
  have h2 := quoteWith_mono call (Nat.le_max_right n m) hm
  rw [h1] at h2
  exact Except.ok.inj h2

end Fuel

/-! ## Returning calls, case by case -/

section Cases

variable {κ : Type}

theorem QuotesTo.quoteVar (call : κ → Value κ → Value κ) (ctx : quoteContext)
    (n : String) (i : Int) :
    QuotesTo call ctx (.QuoteVar n i) (.BoundVar n (goSub (goSub (ctx.get n) i) 1)) :=
  ⟨1, by rw [quoteWith]⟩

theorem QuotesTo.lambda_iff (call : κ → Value κ → Value κ) (ctx : quoteContext)
    (l : String) (d : Value κ) (c : κ) (t : Term) :
    QuotesTo call ctx (.LambdaValue l d c) t ↔
      ∃ ty body, t = .LambdaTerm l ty body ∧ QuotesTo call ctx d ty ∧
        QuotesTo call (ctx.extend l) (call c (.QuoteVar l (ctx.get l))) body := by
  constructor
  · rintro ⟨fuel, h⟩
    cases fuel with
    | zero => simp [quoteWith] at h
    | succ n =>
      rw [quoteWith] at h
      cases hd : quoteWith call n ctx d with
      | error err => simp [hd] at h
      | ok ty =>
        cases hb : quoteWith call n (ctx.extend l) (call c (.QuoteVar l (ctx.get l))) with
        | error err => simp [hd, hb] at h
        | ok b =>
          simp only [hd, hb, Except.ok.injEq] at h
          exact ⟨ty, b, h.symm, ⟨n, hd⟩, ⟨n, hb⟩⟩
  · rintro ⟨ty, b, rfl, ⟨n₁, h₁⟩, ⟨n₂, h₂⟩⟩
    refine ⟨max n₁ n₂ + 1, ?_⟩
    rw [quoteWith]
    simp only [quoteWith_mono call (Nat.le_max_left n₁ n₂) h₁,
      quoteWith_mono call (Nat.le_max_right n₁ n₂) h₂]

theorem QuotesTo.pi_iff (call : κ → Value κ → Value κ) (ctx : quoteContext)
    (l : String) (d : Value κ) (c : κ) (t : Term) :
    QuotesTo call ctx (.PiValue l d c) t ↔
      ∃ ty body, t = .PiTerm l ty body ∧ QuotesTo call ctx d ty ∧
        QuotesTo call (ctx.extend l) (call c (.QuoteVar l (ctx.get l))) body := by
  constructor
  · rintro ⟨fuel, h⟩
    cases fuel with
    | zero => simp [quoteWith] at h
    | succ n =>
      rw [quoteWith] at h
      cases hd : quoteWith call n ctx d with
      | error err => simp [hd] at h
      | ok ty =>
        cases hb : quoteWith call n (ctx.extend l) (call c (.QuoteVar l (ctx.get l))) with
        | error err => simp [hd, hb] at h
        | ok b =>
          simp only [hd, hb, Except.ok.injEq] at h
          exact ⟨ty, b, h.symm, ⟨n, hd⟩, ⟨n, hb⟩⟩
  · rintro ⟨ty, b, rfl, ⟨n₁, h₁⟩, ⟨n₂, h₂⟩⟩
    refine ⟨max n₁ n₂ + 1, ?_⟩
    rw [quoteWith]
    simp only [quoteWith_mono call (Nat.le_max_left n₁ n₂) h₁,
      quoteWith_mono call (Nat.le_max_right n₁ n₂) h₂]

theorem QuotesTo.lambda (call : κ → Value κ → Value κ) {ctx : quoteContext}
    {l : String} {d : Value κ} {c : κ} {ty body : Term}
    (hd : QuotesTo call ctx d ty)
    (hb : QuotesTo call (ctx.extend l) (call c (.QuoteVar l (ctx.get l))) body) :
    QuotesTo call ctx (.LambdaValue l d c) (.LambdaTerm l ty body) :=
  (QuotesTo.lambda_iff call ctx l d c _).2 ⟨ty, body, rfl, hd, hb⟩

theorem get_empty (n : String) : quoteContext.empty.get n = 0 := rfl

theorem get_extend_empty (n : String) : (quoteContext.empty.extend n).get n = 1 := by
  rw [quoteContext.get_extend_same, get_empty]; decide

theorem get_extend_extend_empty (n : String) :
    ((quoteContext.empty.extend n).extend n).get n = 2 := by
  rw [quoteContext.get_extend_same, get_extend_empty]; decide

theorem quoteChunks_length (q : Value κ → Except QuoteErr Term)
    (cs : List (Chunk (Value κ))) (acc r : List (Chunk Term))
    (h : quoteChunks q cs acc = .ok r) : r.length = acc.length + cs.length := by
  induction cs generalizing acc with
  | nil =>
    simp only [quoteChunks, Except.ok.injEq] at h
    simp [← h]
  | cons c rest ih =>
    simp only [quoteChunks] at h
    cases he : q c.Expr with
    | error err => simp [he] at h
    | ok t =>
      rw [he] at h
      have := ih _ h
      simp at this ⊢
      omega

theorem QuotesTo.textLit_of_supported (call : κ → Value κ → Value κ) (ctx : quoteContext)
    (w : Value κ) (hw : unimplementedMarker w = none) (s : String)
    (h : QuotesTo call ctx w (.TextLitTerm [] s)) : w = .TextLitVal [] s := by
  obtain ⟨fuel, h⟩ := h
  cases fuel with
  | zero => simp [quoteWith] at h
  | succ n =>
    cases w with
    | TextLitVal cs sfx =>
      rw [quoteWith] at h
      cases hc : quoteChunks (quoteWith call n ctx) cs [] with
      | error err => simp [hc] at h
      | ok l =>
        simp only [hc, Except.ok.injEq, Term.TextLitTerm.injEq] at h
        have hl := quoteChunks_length _ _ _ _ hc
        rw [h.1] at hl
        simp only [List.length_nil, Nat.zero_add] at hl
        rw [List.eq_nil_of_length_eq_zero hl.symm, h.2]
    | _ =>
      first
        | (simp [unimplementedMarker] at hw; done)
        | (rw [quoteWith] at h
           repeat' split at h
           all_goals simp at h)

theorem QuotesTo.app_iff (call : κ → Value κ → Value κ) (ctx : quoteContext)
    (f a : Value κ) (t : Term) :
    QuotesTo call ctx (.AppValue f a) t ↔
      ∃ f' a', t = .AppTerm f' a' ∧ QuotesTo call ctx f f' ∧ QuotesTo call ctx a a' := by
  constructor
  · rintro ⟨fuel, h⟩
    cases fuel with
    | zero => simp [quoteWith] at h
    | succ n =>
      rw [quoteWith] at h
      cases hf : quoteWith call n ctx f with
      | error err => simp [hf] at h
      | ok f' =>
        cases ha : quoteWith call n ctx a with
        | error err => simp [hf, ha] at h
        | ok a' =>
          simp only [hf, ha, Except.ok.injEq] at h
          exact ⟨f', a', h.symm, ⟨n, hf⟩, ⟨n, ha⟩⟩
  · rintro ⟨f', a', rfl, ⟨n₁, h₁⟩, ⟨n₂, h₂⟩⟩
    refine ⟨max n₁ n₂ + 1, ?_⟩
    rw [quoteWith]
    simp only [quoteWith_mono call (Nat.le_max_left n₁ n₂) h₁,
      quoteWith_mono call (Nat.le_max_right n₁ n₂) h₂]

theorem QuotesTo.op_iff (call : κ → Value κ → Value κ) (ctx : quoteContext)
    (o : Int) (l r : Value κ) (t : Term) :
    QuotesTo call ctx (.OpValue o l r) t ↔
      ∃ l' r', t = .OpTerm o l' r' ∧ QuotesTo call ctx l l' ∧ QuotesTo call ctx r r' := by
  constructor
  · rintro ⟨fuel, h⟩
    cases fuel with
    | zero => simp [quoteWith] at h
    | succ n =>
      rw [quoteWith] at h
      cases hl : quoteWith call n ctx l with
      | error err => simp [hl] at h
      | ok l' =>
        cases hr : quoteWith call n ctx r with
        | error err => simp [hl, hr] at h
        | ok r' =>
          simp only [hl, hr, Except.ok.injEq] at h
          exact ⟨l', r', h.symm, ⟨n, hl⟩, ⟨n, hr⟩⟩
  · rintro ⟨l', r', rfl, ⟨n₁, h₁⟩, ⟨n₂, h₂⟩⟩
    refine ⟨max n₁ n₂ + 1, ?_⟩
    rw [quoteWith]
    simp only [quoteWith_mono call (Nat.le_max_left n₁ n₂) h₁,
      quoteWith_mono call (Nat.le_max_right n₁ n₂) h₂]

theorem quoteWith_unimplemented (call : κ → Value κ → Value κ) (fuel : Nat)
    (ctx : quoteContext) (u : Value κ) (s : String) (hu : unimplementedMarker u = some s) :
    quoteWith call (fuel + 1) ctx u = .ok (.TextLitTerm [] s) := by
  cases u <;> simp [unimplementedMarker] at hu <;> subst hu <;> rw [quoteWith]

/-- The loop over the elements of a list returns `r` exactly when `r` is the list
built so far followed by the results of `q` on the elements, in order. -/
theorem quoteElems_iff (q : Value κ → Except QuoteErr Term) (es : List (Value κ))
    (acc r : List Term) :
    quoteElems q es acc = .ok r ↔
      ∃ ts, r = acc ++ ts ∧ List.Forall₂ (fun e t => q e = .ok t) es ts := by
  induction es generalizing acc with
  | nil =>
    simp only [quoteElems, Except.ok.injEq]
    constructor
    · intro h; exact ⟨[], by simp [h], List.Forall₂.nil⟩
    · rintro ⟨ts, rfl, hts⟩
      cases hts
      simp
  | cons e rest ih =>
    simp only [quoteElems]
    cases he : q e with
    | error err =>
      constructor
      · intro h; simp at h
      · rintro ⟨ts, -, hts⟩
        cases hts with
        | cons h _ => rw [he] at h; simp at h
    | ok t =>
      simp only [ih]
      constructor
      · rintro ⟨ts, rfl, hts⟩
        exact ⟨t :: ts, by simp, List.Forall₂.cons he hts⟩
      · rintro ⟨ts, rfl, hts⟩
        cases hts with
        | cons h htl =>
          rw [he] at h
          cases h
          exact ⟨_, by simp, htl⟩

/-- Finitely many returning calls return with one common amount of fuel. -/
theorem common_fuel (call : κ → Value κ → Value κ) (ctx : quoteContext) {α β : Type}
    (val : α → Value κ) (tm : β → Term) (P : α → β → Prop) (xs : List α) (ys : List β)
    (h : List.Forall₂ (fun a b => P a b ∧ QuotesTo call ctx (val a) (tm b)) xs ys) :
    ∃ N, List.Forall₂ (fun a b => P a b ∧ quoteWith call N ctx (val a) = .ok (tm b))
      xs ys := by
  induction h with
  | nil => exact ⟨0, List.Forall₂.nil⟩
  | cons hab _ ih =>
    obtain ⟨N, hN⟩ := ih
    obtain ⟨hP, n, hn⟩ := hab
    refine ⟨max n N, List.Forall₂.cons ⟨hP, quoteWith_mono call (Nat.le_max_left n N) hn⟩ ?_⟩
    exact hN.imp fun _ _ hx => ⟨hx.1, quoteWith_mono call (Nat.le_max_right n N) hx.2⟩

theorem QuotesTo.nonEmptyList_iff (call : κ → Value κ → Value κ) (ctx : quoteContext)
    (es : List (Value κ)) (t : Term) :
    QuotesTo call ctx (.NonEmptyListVal es) t ↔
      ∃ ts, t = .NonEmptyList ts ∧ List.Forall₂ (QuotesTo call ctx) es ts := by
  constructor
  · rintro ⟨fuel, h⟩
    cases fuel with
    | zero => simp [quoteWith] at h
    | succ n =>
      rw [quoteWith] at h
      cases hl : quoteElems (quoteWith call n ctx) es [] with
      | error err => simp [hl] at h
      | ok l =>
        simp only [hl, Except.ok.injEq] at h
        obtain ⟨ts, hts, hall⟩ := (quoteElems_iff _ es [] l).1 hl
        simp only [List.nil_append] at hts
        subst hts
        exact ⟨l, h.symm, hall.imp fun _ _ hx => ⟨n, hx⟩⟩
  · rintro ⟨ts, rfl, hall⟩
    have hall' : List.Forall₂ (fun a b => True ∧ QuotesTo call ctx (id a) (id b)) es ts :=
      hall.imp fun _ _ hx => ⟨trivial, hx⟩
    obtain ⟨N, hN⟩ := common_fuel call ctx id id (fun _ _ => True) es ts hall'
    refine ⟨N + 1, ?_⟩
    rw [quoteWith]
    have : quoteElems (quoteWith call N ctx) es [] = .ok ts :=
      (quoteElems_iff _ es [] ts).2 ⟨ts, by simp, hN.imp fun _ _ hx => hx.2⟩
    simp only [this]

theorem mapSet_of_not_mem {V : Type} (m : List (String × V)) (k : String) (v : V)
    (h : k ∉ mapKeys m) : mapSet m k v = m ++ [(k, v)] := by
  induction m with
  | nil => simp [mapSet]
  | cons e rest ih =>
    obtain ⟨k', v'⟩ := e
    simp only [mapKeys, List.map_cons, List.mem_cons, not_or] at h
    have hne : ¬ k' = k := fun e => h.1 e.symm
    simp only [mapSet, hne, if_false, List.cons_append]
    rw [ih h.2]

/-- The loop over the entries of a map with distinct keys, none of them in the map
built so far, returns `r` exactly when `r` is the map built so far followed by one
entry per source entry, in order, with the same key and the result of `q` on the
value. -/
theorem quoteFields_iff (q : Value κ → Except QuoteErr Term)
    (fs : List (String × Value κ)) (acc r : List (String × Term))
    (hnd : (mapKeys fs).Nodup) (hdis : ∀ k ∈ mapKeys fs, k ∉ mapKeys acc) :
    quoteFields q fs acc = .ok r ↔
      ∃ ts, r = acc ++ ts ∧
        List.Forall₂ (fun f t => t.1 = f.1 ∧ q f.2 = .ok t.2) fs ts := by
  induction fs generalizing acc with
  | nil =>
    simp only [quoteFields, Except.ok.injEq]
    constructor
    · intro h; exact ⟨[], by simp [h], List.Forall₂.nil⟩
    · rintro ⟨ts, rfl, hts⟩
      cases hts
      simp
  | cons f rest ih =>
    obtain ⟨k, v⟩ := f
    simp only [mapKeys, List.map_cons, List.nodup_cons] at hnd
    have hk : k ∉ mapKeys acc := hdis k (by simp [mapKeys])
    simp only [quoteFields]
    cases he : q v with
    | error err =>
      constructor
      · intro h; simp at h
      · rintro ⟨ts, -, hts⟩
        cases hts with
        | cons h _ => rw [he] at h; simp at h
    | ok t =>
      have hdis' : ∀ k₂ ∈ mapKeys rest, k₂ ∉ mapKeys (mapSet acc k t) := by
        intro k₂ hk₂
        rw [mapSet_of_not_mem acc k t hk]
        simp only [mapKeys, List.map_append, List.map_cons, List.map_nil, List.mem_append,
          List.mem_singleton, not_or]
        refine ⟨hdis k₂ (by simp only [mapKeys, List.map_cons, List.mem_cons]; exact Or.inr hk₂), ?_⟩
        intro e
        subst e
        exact hnd.1 hk₂
      simp only [ih (mapSet acc k t) hnd.2 hdis']
      rw [mapSet_of_not_mem acc k t hk]
      constructor
      · rintro ⟨ts, rfl, hts⟩
        exact ⟨(k, t) :: ts, by simp, List.Forall₂.cons ⟨rfl, he⟩ hts⟩
      · rintro ⟨ts, rfl, hts⟩
        cases hts with
        | @cons _ b _ l₂ h htl =>
          obtain ⟨kb, tb⟩ := b
          simp only at h
          obtain ⟨h₁, h₂⟩ := h
          rw [he] at h₂
          cases h₂
          subst h₁
          exact ⟨l₂, by simp, htl⟩

/-- What the loop over the entries of a record returns, for a record with distinct
keys: `rt` is entry by entry the record with every value quoted. -/
theorem quoteFields_returns_iff (call : κ → Value κ → Value κ) (ctx : quoteContext)
    (fs : List (String × Value κ)) (hnd : (mapKeys fs).Nodup) (rt : List (String × Term)) :
    (∃ fuel, quoteFields (quoteWith call fuel ctx) fs [] = .ok rt) ↔
      List.Forall₂ (fun f r => r.1 = f.1 ∧ QuotesTo call ctx f.2 r.2) fs rt := by
  have hdis : ∀ k ∈ mapKeys fs, k ∉ mapKeys ([] : List (String × Term)) := by
    intro k _; simp [mapKeys]
  constructor
  · rintro ⟨n, h⟩
    obtain ⟨ts, hts, hall⟩ := (quoteFields_iff _ fs [] rt hnd hdis).1 h
    simp only [List.nil_append] at hts
    subst hts
    exact hall.imp fun _ _ hx => ⟨hx.1, n, hx.2⟩
  · intro hall
    obtain ⟨N, hN⟩ := common_fuel call ctx Prod.snd Prod.snd (fun f r => r.1 = f.1) fs rt hall
    exact ⟨N, (quoteFields_iff _ fs [] rt hnd hdis).2 ⟨rt, by simp, hN⟩⟩

theorem QuotesTo.recordLit_iff (call : κ → Value κ → Value κ) (ctx : quoteContext)
    (fs : List (String × Value κ)) (hnd : (mapKeys fs).Nodup) (t : Term) :
    QuotesTo call ctx (.RecordLitVal fs) t ↔
      ∃ rt, t = .RecordLit rt ∧
        List.Forall₂ (fun f r => r.1 = f.1 ∧ QuotesTo call ctx f.2 r.2) fs rt := by
  constructor
  · rintro ⟨fuel, h⟩
    cases fuel with
    | zero => simp [quoteWith] at h
    | succ n =>
      rw [quoteWith] at h
      cases hl : quoteFields (quoteWith call n ctx) fs [] with
      | error err => simp [hl] at h
      | ok l =>
        simp only [hl, Except.ok.injEq] at h
        exact ⟨l, h.symm, (quoteFields_returns_iff call ctx fs hnd l).1 ⟨n, hl⟩⟩
  · rintro ⟨rt, rfl, hall⟩
    obtain ⟨N, hN⟩ := (quoteFields_returns_iff call ctx fs hnd rt).2 hall
    refine ⟨N + 1, ?_⟩
    rw [quoteWith]
    simp only [hN]

theorem QuotesTo.recordType_iff (call : κ → Value κ → Value κ) (ctx : quoteContext)
    (fs : List (String × Value κ)) (hnd : (mapKeys fs).Nodup) (t : Term) :
    QuotesTo call ctx (.RecordTypeVal fs) t ↔
      ∃ rt, t = .RecordType rt ∧
        List.Forall₂ (fun f r => r.1 = f.1 ∧ QuotesTo call ctx f.2 r.2) fs rt := by
  constructor
  · rintro ⟨fuel, h⟩
    cases fuel with
    | zero => simp [quoteWith] at h
    | succ n =>
      rw [quoteWith] at h
      cases hl : quoteFields (quoteWith call n ctx) fs [] with
      | error err => simp [hl] at h
      | ok l =>
        simp only [hl, Except.ok.injEq] at h
        exact ⟨l, h.symm, (quoteFields_returns_iff call ctx fs hnd l).1 ⟨n, hl⟩⟩
  · rintro ⟨rt, rfl, hall⟩
    obtain ⟨N, hN⟩ := (quoteFields_returns_iff call ctx fs hnd rt).2 hall
    refine ⟨N + 1, ?_⟩
    rw [quoteWith]
    simp only [hN]

/-- Entry-by-entry correspondence of two maps, stated by keys and look-ups: for a
source with distinct keys it says that the two maps have the same keys and that the
second maps each key to something related to what the first maps it to. -/
theorem forall₂_iff_keys_lookup {A B : Type} (R : A → B → Prop)
    (fs : List (String × A)) (hnd : (mapKeys fs).Nodup) (rt : List (String × B)) :
    List.Forall₂ (fun f r => r.1 = f.1 ∧ R f.2 r.2) fs rt ↔
      mapKeys rt = mapKeys fs ∧
        ∀ k v, mapGet fs k = some v → ∃ t, mapGet rt k = some t ∧ R v t := by
  induction fs generalizing rt with
  | nil =>
    constructor
    · intro h; cases h; simp [mapKeys, mapGet]
    · rintro ⟨hk, -⟩
      cases rt with
      | nil => exact List.Forall₂.nil
      | cons r rt' => simp [mapKeys] at hk
  | cons f rest ih =>
    obtain ⟨k, v⟩ := f
    have hnd' : (mapKeys rest).Nodup := by
      simp only [mapKeys, List.map_cons, List.nodup_cons] at hnd; exact hnd.2
    have hk : k ∉ mapKeys rest := by
      simp only [mapKeys, List.map_cons, List.nodup_cons] at hnd; exact hnd.1
    cases rt with
    | nil =>
      constructor
      · intro h; cases h
      · rintro ⟨hkeys, -⟩; simp [mapKeys] at hkeys
    | cons r rt' =>
      obtain ⟨k', t'⟩ := r
      rw [List.forall₂_cons, ih hnd' rt']
      simp only [mapKeys, List.map_cons, List.cons.injEq]
      constructor
      · rintro ⟨⟨hkk, hR⟩, hkeys, hlook⟩
        subst hkk
        refine ⟨⟨rfl, hkeys⟩, ?_⟩
        intro k₂ v₂ hget
        by_cases h₂ : k' = k₂
        · subst h₂
          simp only [mapGet, if_true, Option.some.injEq] at hget ⊢
          subst hget
          exact ⟨t', rfl, hR⟩
        · simp only [mapGet, h₂, if_false] at hget ⊢
          exact hlook k₂ v₂ hget
      · rintro ⟨⟨hkk, hkeys⟩, hlook⟩
        subst hkk
        refine ⟨⟨rfl, ?_⟩, hkeys, ?_⟩
        · obtain ⟨t, ht, hR⟩ := hlook k' v (by simp [mapGet])
          simp only [mapGet, if_true, Option.some.injEq] at ht
          subst ht
          exact hR
        · intro k₂ v₂ hget
          have hmem : k₂ ∈ mapKeys rest := by
            by_contra hc
            rw [(mapGet_eq_none_iff rest k₂).2 hc] at hget
            simp at hget
          have hne : ¬ k' = k₂ := fun e => hk (e ▸ hmem)
          obtain ⟨t, ht, hR⟩ := hlook k₂ v₂ (by simp only [mapGet, hne, if_false]; exact hget)
          simp only [mapGet, hne, if_false] at ht
          exact ⟨t, ht, hR⟩

theorem getD_append_length (h : MapHeap) (m : List (String × Int)) :
    (h ++ [m]).getD h.length [] = m := by
  induction h with
  | nil => rfl
  | cons a rest ih => simp [List.getD]

theorem set_append_length (h : MapHeap) (m m' : List (String × Int)) :
    (h ++ [m]).set h.length m' = h ++ [m'] := by
  induction h with
  | nil => rfl
  | cons a rest ih => simp [List.set]

theorem heapStore_last (h : MapHeap) (m : List (String × Int)) (k : String) (v : Int) :
    heapStore (h ++ [m]) h.length k v = h ++ [mapSet m k v] := by
  unfold heapStore
  rw [getD_append_length, set_append_length]

/-- The copying loop of `extend` on the heap stores into the new map only. -/
theorem copyLoop_heap (l : List (String × Int)) (h : MapHeap) (m : List (String × Int)) :
    l.foldl (fun hh e => heapStore hh h.length e.1 e.2) (h ++ [m]) =
      h ++ [l.foldl (fun acc (e : String × Int) => mapSet acc e.1 e.2) m] := by
  induction l generalizing m with
  | nil => rfl
  | cons e rest ih =>
    rw [List.foldl_cons, heapStore_last, ih, List.foldl_cons]

/-- Whatever the receiver, `extend` leaves behind the heap it found with one map
added at the end. -/
theorem extendOnHeap_eq (h : MapHeap) (q : Nat) (name : String) :
    extendOnHeap h q name =
      (h ++ [mapSet (((h ++ [[]]).getD q []).foldl (fun acc (e : String × Int) => mapSet acc e.1 e.2) [])
          name (goAdd ((mapGet (((h ++ [[]]).getD q []).foldl
            (fun acc (e : String × Int) => mapSet acc e.1 e.2) []) name).getD 0) 1)], h.length) := by
  unfold extendOnHeap
  simp only [copyLoop_heap, heapStore_last, heapLoad, getD_append_length]

theorem copy_entries (l : List (String × Int)) (c : quoteContext) :
    (l.foldl (fun acc e => acc.set e.1 e.2) c).entries =
      l.foldl (fun acc (e : String × Int) => mapSet acc e.1 e.2) c.entries := by
  induction l generalizing c with
  | nil => rfl
  | cons e rest ih =>
    rw [List.foldl_cons, ih, List.foldl_cons]
    rfl

theorem getD_append_cons (pre post : MapHeap) (m : List (String × Int)) :
    (pre ++ m :: post).getD pre.length [] = m := by
  induction pre with
  | nil => rfl
  | cons a rest ih => exact ih

theorem extendOnHeap_prefix (ops : List (Nat × String)) (h : MapHeap) :
    (ops.foldl (fun hh op => (extendOnHeap hh op.1 op.2).1) h).take h.length = h := by
  induction ops generalizing h with
  | nil => simp
  | cons op rest ih =>
    rw [List.foldl_cons, extendOnHeap_eq]
    have h₁ := ih (h ++ [mapSet (((h ++ [[]]).getD op.1 []).foldl
      (fun acc (e : String × Int) => mapSet acc e.1 e.2) []) op.2
      (goAdd ((mapGet (((h ++ [[]]).getD op.1 []).foldl
        (fun acc (e : String × Int) => mapSet acc e.1 e.2) []) op.2).getD 0) 1)])
    have h₂ := congrArg (List.take h.length) h₁
    rw [List.take_take] at h₂
    simpa using h₂

theorem wrapInt_wrapInt_add (a d : Int) : wrapInt (wrapInt a + d) = wrapInt (a + d) := by
  unfold wrapInt intBits
  omega

/-- The count of `x` after passing the binders `ns`, up to the range of `int`. -/
theorem get_foldl_extend (ns : List String) (ctx : quoteContext) (x : String) (d : Int) :
    wrapInt ((ns.foldl quoteContext.extend ctx).get x + d) =
      wrapInt (ctx.get x + (ns.count x : Int) + d) := by
  induction ns generalizing ctx with
  | nil => simp
  | cons m rest ih =>
    rw [List.foldl_cons, ih (ctx.extend m)]
    by_cases hm : m = x
    · subst hm
      rw [quoteContext.get_extend_same, List.count_cons_self]
      unfold goAdd
      rw [Int.add_assoc, wrapInt_wrapInt_add]
      congr 1
      push_cast
      omega
    · rw [quoteContext.get_extend_other ctx m x (fun e => hm e.symm),
        List.count_cons_of_ne (fun e => hm e.symm)]

theorem QuotesTo.quoteVar_iff (call : κ → Value κ → Value κ) (ctx : quoteContext)
    (n : String) (i : Int) (t : Term) :
    QuotesTo call ctx (.QuoteVar n i) t ↔
      t = .BoundVar n (goSub (goSub (ctx.get n) i) 1) :=
  ⟨fun h => QuotesTo.unique call h (QuotesTo.quoteVar call ctx n i),
    fun h => h ▸ QuotesTo.quoteVar call ctx n i⟩

/-- The index of a placeholder quoted right under its own binder. -/
theorem fresh_index (c : Int) : goSub (goSub (goAdd c 1) c) 1 = 0 := by
  unfold goSub goAdd wrapInt intBits
  omega

/-- The loop over the chunks of a text literal returns `r` exactly when `r` is the
list built so far followed by one chunk per source chunk, in order, with the same
prefix and the result of `q` on the embedded expression. -/
theorem quoteChunks_iff (q : Value κ → Except QuoteErr Term)
    (cs : List (Chunk (Value κ))) (acc r : List (Chunk Term)) :
    quoteChunks q cs acc = .ok r ↔
      ∃ ts, r = acc ++ ts ∧
        List.Forall₂ (fun c t => t.Prefix = c.Prefix ∧ q c.Expr = .ok t.Expr) cs ts := by
  induction cs generalizing acc with
  | nil =>
    simp only [quoteChunks, Except.ok.injEq]
    constructor
    · intro h; exact ⟨[], by simp [h], List.Forall₂.nil⟩
    · rintro ⟨ts, rfl, hts⟩
      cases hts
      simp
  | cons c rest ih =>
    simp only [quoteChunks]
    cases he : q c.Expr with
    | error err =>
      constructor
      · intro h; simp at h
      · rintro ⟨ts, -, hts⟩
        cases hts with
        | cons h _ => rw [he] at h; simp at h
    | ok t =>
      simp only [ih]
      constructor
      · rintro ⟨ts, rfl, hts⟩
        exact ⟨⟨c.Prefix, t⟩ :: ts, by simp, List.Forall₂.cons ⟨rfl, he⟩ hts⟩
      · rintro ⟨ts, rfl, hts⟩
        cases hts with
        | @cons _ b _ l₂ h htl =>
          obtain ⟨bp, be⟩ := b
          obtain ⟨h₁, h₂⟩ := h
          simp only at h₁ h₂
          rw [he] at h₂
          cases h₂
          subst h₁
          exact ⟨l₂, by simp, htl⟩

theorem QuotesTo.textLit_iff (call : κ → Value κ → Value κ) (ctx : quoteContext)
    (cs : List (Chunk (Value κ))) (sfx : String) (t : Term) :
    QuotesTo call ctx (.TextLitVal cs sfx) t ↔
      ∃ ts, t = .TextLitTerm ts sfx ∧
        List.Forall₂ (fun c r => r.Prefix = c.Prefix ∧ QuotesTo call ctx c.Expr r.Expr)
          cs ts := by
  constructor
  · rintro ⟨fuel, h⟩
    cases fuel with
    | zero => simp [quoteWith] at h
    | succ n =>
      rw [quoteWith] at h
      cases hl : quoteChunks (quoteWith call n ctx) cs [] with
      | error err => simp [hl] at h
      | ok l =>
        simp only [hl, Except.ok.injEq] at h
        obtain ⟨ts, hts, hall⟩ := (quoteChunks_iff _ cs [] l).1 hl
        simp only [List.nil_append] at hts
        subst hts
        exact ⟨l, h.symm, hall.imp fun _ _ hx => ⟨hx.1, n, hx.2⟩⟩
  · rintro ⟨ts, rfl, hall⟩
    obtain ⟨N, hN⟩ := common_fuel call ctx Chunk.Expr Chunk.Expr
      (fun c r => r.Prefix = c.Prefix) cs ts hall
    refine ⟨N + 1, ?_⟩
    rw [quoteWith]
    have : quoteChunks (quoteWith call N ctx) cs [] = .ok ts :=
      (quoteChunks_iff _ cs [] ts).2 ⟨ts, by simp, hN⟩
    simp only [this]

theorem quoteWith_quoteVar_eq (call : κ → Value κ → Value κ) (fuel : Nat)
    (ctx : quoteContext) (n : String) (i : Int) :
    quoteWith call (fuel + 1) ctx (.QuoteVar n i) =
      .ok (.BoundVar n (goSub (goSub (ctx.get n) i) 1)) := by
  rw [quoteWith]

/-- A lambda returns one unit of fuel after its domain and its body have. -/
theorem quoteWith_lambda_of (call : κ → Value κ → Value κ) {n : Nat}
    {ctx : quoteContext} {l : String} {d : Value κ} {c : κ} {ty body : Term}
    (hd : quoteWith call n ctx d = .ok ty)
    (hb : quoteWith call n (ctx.extend l) (call c (.QuoteVar l (ctx.get l))) = .ok body) :
    quoteWith call (n + 1) ctx (.LambdaValue l d c) = .ok (.LambdaTerm l ty body) := by
  rw [quoteWith]
  simp only [hd, hb]

/-- A pi returns one unit of fuel after its domain and its codomain have. -/
theorem quoteWith_pi_of (call : κ → Value κ → Value κ) {n : Nat}
    {ctx : quoteContext} {l : String} {d : Value κ} {c : κ} {ty body : Term}
    (hd : quoteWith call n ctx d = .ok ty)
    (hb : quoteWith call n (ctx.extend l) (call c (.QuoteVar l (ctx.get l))) = .ok body) :
    quoteWith call (n + 1) ctx (.PiValue l d c) = .ok (.PiTerm l ty body) := by
  rw [quoteWith]
  simp only [hd, hb]

/-- The body of a binder whose closure is the identity, quoted under the extended
context. -/
theorem quoteWith_fresh_placeholder (call : κ → Value κ → Value κ) (idc : κ)
    (hid : ∀ a, call idc a = a) (fuel : Nat) (ctx : quoteContext) (l : String) :
    quoteWith call (fuel + 1) (ctx.extend l) (call idc (.QuoteVar l (ctx.get l))) =
      .ok (.BoundVar l 0) := by
  rw [hid, quoteWith_quoteVar_eq, quoteContext.get_extend_same, fresh_index]

/-- Counts stay Go `int`s under `extend`. -/
theorem inRange_get_foldl_extend (ns : List String) (ctx : quoteContext) (x : String)
    (h : InIntRange (ctx.get x)) : InIntRange ((ns.foldl quoteContext.extend ctx).get x) := by
  induction ns generalizing ctx with
  | nil => exact h
  | cons m rest ih =>
    rw [List.foldl_cons]
    apply ih
    by_cases hm : m = x
    · subst hm
      rw [quoteContext.get_extend_same]
      exact wrapInt_inRange _
    · rw [quoteContext.get_extend_other ctx m x (fun e => hm e.symm)]
      exact h

/-- In a context built from the empty one by fewer than `2 ^ 63` calls of `extend`,
the count of a name is the number of binders of that name passed. -/
theorem get_foldl_extend_empty (ns : List String) (hns : ns.length < 2 ^ 63) (x : String) :
    (ns.foldl quoteContext.extend quoteContext.empty).get x = (ns.count x : Int) := by
  have h := get_foldl_extend ns quoteContext.empty x 0
  have hr : InIntRange ((ns.foldl quoteContext.extend quoteContext.empty).get x) :=
    inRange_get_foldl_extend ns quoteContext.empty x (by rw [get_empty]; decide)
  have hcnt : ns.count x ≤ ns.length := List.count_le_length x ns
  have hr' : InIntRange (quoteContext.empty.get x + (ns.count x : Int) + 0) := by
    rw [get_empty]
    unfold InIntRange
    omega
  rw [Int.add_zero, wrapInt_of_inRange _ hr, wrapInt_of_inRange _ hr', get_empty] at h
  omega

end Cases

section Claims

variable {κ : Type}

/-- C2: for every quote context `ctx` and every `LambdaValue` `v` (likewise every
`PiValue`, with `Range` for `Call1`), `quoteWith(ctx, v)` is a `LambdaTerm` (resp.
`PiTerm`) with the label of `v`, whose `Type` is `quoteWith(ctx, v.Domain)` under
the unextended context and whose `Body` is `quoteWith(ctx.extend(v.Label),
v.Call1(QuoteVar{v.Label, ctx[v.Label]}))`.  The call returns that term one unit of
fuel after the two inner calls have returned, and returns nothing else; in the
extended context the count of the label is one higher (Go `++`).  With a placeholder
as domain and a closure that returns a placeholder the call returns outright: the
domain's index is taken from `ctx`, the body's from `ctx.extend(v.Label)`. -/
theorem quoteWith_binder (call : κ → Value κ → Value κ) (ctx : quoteContext)
    (l : String) :
    (∀ n d c ty body, quoteWith call n ctx d = .ok ty →
        quoteWith call n (ctx.extend l) (call c (.QuoteVar l (ctx.get l))) = .ok body →
        quoteWith call (n + 1) ctx (.LambdaValue l d c) = .ok (.LambdaTerm l ty body))
      ∧ (∀ n d c ty body, quoteWith call n ctx d = .ok ty →
        quoteWith call n (ctx.extend l) (call c (.QuoteVar l (ctx.get l))) = .ok body →
        quoteWith call (n + 1) ctx (.PiValue l d c) = .ok (.PiTerm l ty body))
      ∧ (∀ fuel c m j m' j', call c (.QuoteVar l (ctx.get l)) = .QuoteVar m' j' →
        quoteWith call (fuel + 2) ctx (.LambdaValue l (.QuoteVar m j) c) =
          .ok (.LambdaTerm l (.BoundVar m (goSub (goSub (ctx.get m) j) 1))
            (.BoundVar m' (goSub (goSub ((ctx.extend l).get m') j') 1))))
      ∧ (∀ fuel c m j m' j', call c (.QuoteVar l (ctx.get l)) = .QuoteVar m' j' →
        quoteWith call (fuel + 2) ctx (.PiValue l (.QuoteVar m j) c) =
          .ok (.PiTerm l (.BoundVar m (goSub (goSub (ctx.get m) j) 1))
            (.BoundVar m' (goSub (goSub ((ctx.extend l).get m') j') 1))))
      ∧ (∀ d c t, QuotesTo call ctx (.LambdaValue l d c) t ↔
        ∃ ty body, t = .LambdaTerm l ty body ∧ QuotesTo call ctx d ty ∧
          QuotesTo call (ctx.extend l) (call c (.QuoteVar l (ctx.get l))) body)
      ∧ (∀ d c t, QuotesTo call ctx (.PiValue l d c) t ↔
        ∃ ty body, t = .PiTerm l ty body ∧ QuotesTo call ctx d ty ∧
          QuotesTo call (ctx.extend l) (call c (.QuoteVar l (ctx.get l))) body)
      ∧ (ctx.extend l).get l = goAdd (ctx.get l) 1 := by
  refine ⟨fun _ _ _ _ _ hd hb => quoteWith_lambda_of call hd hb,
    fun _ _ _ _ _ hd hb => quoteWith_pi_of call hd hb, ?_, ?_,
    fun d c t => QuotesTo.lambda_iff call ctx l d c t,
    fun d c t => QuotesTo.pi_iff call ctx l d c t,
    quoteContext.get_extend_same ctx l⟩
  · intro fuel c m j m' j' hc
    refine quoteWith_lambda_of call (quoteWith_quoteVar_eq call fuel ctx m j) ?_
    rw [hc]
    exact quoteWith_quoteVar_eq call fuel (ctx.extend l) m' j'
  · intro fuel c m j m' j' hc
    refine quoteWith_pi_of call (quoteWith_quoteVar_eq call fuel ctx m j) ?_
    rw [hc]
    exact quoteWith_quoteVar_eq call fuel (ctx.extend l) m' j'

/-- C2 under the context `{x: 5}`, with the placeholder `QuoteVar{x, 0}` as domain
and the identity as closure: the domain is quoted under the unextended context
(index `5 - 0 - 1 = 4`), the body under the extended one (index `6 - 5 - 1 = 0`). -/
theorem quoteWith_binder_witness :
    quoteWith Closure.call 2 ⟨[("x", 5)], by decide⟩
        (.LambdaValue "x" (.QuoteVar "x" 0) .identity) =
        .ok (.LambdaTerm "x" (.BoundVar "x" 4) (.BoundVar "x" 0))
      ∧ quoteWith Closure.call 2 ⟨[("x", 5)], by decide⟩
        (.PiValue "x" (.QuoteVar "x" 0) .identity) =
        .ok (.PiTerm "x" (.BoundVar "x" 4) (.BoundVar "x" 0)) :=
  ⟨(quoteWith_binder Closure.call ⟨[("x", 5)], by decide⟩ "x").2.2.1
      0 .identity "x" 0 "x" 5 rfl,
    (quoteWith_binder Closure.call ⟨[("x", 5)], by decide⟩ "x").2.2.2.1
      0 .identity "x" 0 "x" 5 rfl⟩

/-- C3: shadowing.  For the value of `λ(x:T). λ(x:T). x`, an outer `LambdaValue`
labelled `x` whose closure returns an inner `LambdaValue` labelled `x` whose closure
returns its own argument, `Quote` returns two nested `LambdaTerm`s labelled `x`
whose innermost body is `BoundVar{x, 0}`; when the inner closure returns the
argument of the outer closure instead, the innermost body is `BoundVar{x, 1}`.
`tyO` and `tyI` are what the domain `T` quotes to at the two depths. -/
theorem Quote_shadowing (call : κ → Value κ → Value κ) (x : String) (T : Value κ)
    (tyO tyI : Term) (outer₁ outer₂ : κ) (inner₁ inner₂ : Value κ → κ)
    (hO : QuotesTo call quoteContext.empty T tyO)
    (hI : QuotesTo call (quoteContext.empty.extend x) T tyI)
    (houter₁ : ∀ a, call outer₁ a = .LambdaValue x T (inner₁ a))
    (hinner₁ : ∀ a b, call (inner₁ a) b = b)
    (houter₂ : ∀ a, call outer₂ a = .LambdaValue x T (inner₂ a))
    (hinner₂ : ∀ a b, call (inner₂ a) b = a) :
    (∃ fuel, Quote call fuel (.LambdaValue x T outer₁) =
        .ok (.LambdaTerm x tyO (.LambdaTerm x tyI (.BoundVar x 0))))
      ∧ (∃ fuel, Quote call fuel (.LambdaValue x T outer₂) =
        .ok (.LambdaTerm x tyO (.LambdaTerm x tyI (.BoundVar x 1)))) := by
  constructor
  · refine QuotesTo.lambda call hO ?_
    rw [houter₁]
    refine QuotesTo.lambda call hI ?_
    rw [hinner₁]
    have h := QuotesTo.quoteVar call ((quoteContext.empty.extend x).extend x) x
      ((quoteContext.empty.extend x).get x)
    rw [get_extend_extend_empty, get_extend_empty] at h
    rw [get_extend_empty]
    exact h
  · refine QuotesTo.lambda call hO ?_
    rw [houter₂]
    refine QuotesTo.lambda call hI ?_
    rw [hinner₂]
    have h := QuotesTo.quoteVar call ((quoteContext.empty.extend x).extend x) x
      (quoteContext.empty.get x)
    rw [get_extend_extend_empty, get_empty] at h
    rw [get_empty]
    exact h

/-- C3 at the closures of `Closure`, with `x = "x"` and `T` the universe `Type`. -/
theorem Quote_shadowing_witness :
    (∃ fuel, Quote Closure.call fuel
        (.LambdaValue "x" (.Universe .Type_) (.lamOf "x" (.Universe .Type_) .identity)) =
        .ok (.LambdaTerm "x" (.Universe .Type_)
          (.LambdaTerm "x" (.Universe .Type_) (.BoundVar "x" 0))))
      ∧ (∃ fuel, Quote Closure.call fuel
        (.LambdaValue "x" (.Universe .Type_) (.lamCapture "x" (.Universe .Type_))) =
        .ok (.LambdaTerm "x" (.Universe .Type_)
          (.LambdaTerm "x" (.Universe .Type_) (.BoundVar "x" 1)))) :=
  Quote_shadowing Closure.call "x" (.Universe .Type_) (.Universe .Type_)
    (.Universe .Type_) (.lamOf "x" (.Universe .Type_) .identity)
    (.lamCapture "x" (.Universe .Type_)) (fun _ => .identity) (fun a => .konst a)
    ⟨1, rfl⟩ ⟨1, rfl⟩ (fun _ => rfl) (fun _ _ => rfl) (fun _ => rfl) (fun _ _ => rfl)

/-- C4, as amended: for every domain `T` whose quotation returns `ty`, every
closure `idc` that is the identity and all labels `x` and `y`,
`Quote(LambdaValue{x, T, idc})` returns `LambdaTerm{x, ty, BoundVar{x, 0}}` and
`Quote(LambdaValue{y, T, idc})` returns `LambdaTerm{y, ty, BoundVar{y, 0}}`: the
same `Type` and the same index 0, each with the name of its own binder in `Label`
and in `BoundVar.Name`; the two terms are structurally identical exactly when
`x = y`. -/
theorem Quote_identity_lambda (call : κ → Value κ → Value κ) (idc : κ)
    (hid : ∀ a, call idc a = a) (T : Value κ) (ty : Term)
    (hT : QuotesTo call quoteContext.empty T ty) (x y : String) :
    (∃ fuel, Quote call fuel (.LambdaValue x T idc) =
        .ok (.LambdaTerm x ty (.BoundVar x 0)))
      ∧ (∃ fuel, Quote call fuel (.LambdaValue y T idc) =
        .ok (.LambdaTerm y ty (.BoundVar y 0)))
      ∧ (Term.LambdaTerm x ty (.BoundVar x 0) = Term.LambdaTerm y ty (.BoundVar y 0)
          ↔ x = y) := by
  have key : ∀ l : String,
      QuotesTo call quoteContext.empty (.LambdaValue l T idc)
        (.LambdaTerm l ty (.BoundVar l 0)) := by
    intro l
    refine QuotesTo.lambda call hT ?_
    rw [hid]
    have h := QuotesTo.quoteVar call (quoteContext.empty.extend l) l
      (quoteContext.empty.get l)
    rw [get_extend_empty, get_empty] at h
    exact h
  refine ⟨key x, key y, ?_⟩
  constructor
  · intro h
    injection h
  · intro h
    rw [h]

/-- C4 as amended, at the identity closure of `Closure`, the domain `Type` and the
labels `"x"` and `"y"`. -/
theorem Quote_identity_lambda_witness :
    (∃ fuel, Quote Closure.call fuel (.LambdaValue "x" (.Universe .Type_) .identity) =
        .ok (.LambdaTerm "x" (.Universe .Type_) (.BoundVar "x" 0)))
      ∧ (∃ fuel, Quote Closure.call fuel (.LambdaValue "y" (.Universe .Type_) .identity) =
        .ok (.LambdaTerm "y" (.Universe .Type_) (.BoundVar "y" 0)))
      ∧ (Term.LambdaTerm "x" (.Universe .Type_) (.BoundVar "x" 0) =
          Term.LambdaTerm "y" (.Universe .Type_) (.BoundVar "y" 0) ↔ "x" = "y") :=
  Quote_identity_lambda Closure.call .identity (fun _ => rfl) (.Universe .Type_)
    (.Universe .Type_) ⟨1, rfl⟩ "x" "y"

/-- C4 as stated fails: with the domain `Type`, the identity lambda labelled `"x"`
and the one labelled `"y"` quote to terms that differ in `Label` and in the name of
the bound variable. -/
theorem Quote_alpha_counterexample :
    Quote Closure.call 2 (.LambdaValue "x" (.Universe .Type_) .identity) =
        .ok (.LambdaTerm "x" (.Universe .Type_) (.BoundVar "x" 0))
      ∧ Quote Closure.call 2 (.LambdaValue "y" (.Universe .Type_) .identity) =
        .ok (.LambdaTerm "y" (.Universe .Type_) (.BoundVar "y" 0))
      ∧ Quote Closure.call 2 (.LambdaValue "x" (.Universe .Type_) .identity) ≠
        Quote Closure.call 2 (.LambdaValue "y" (.Universe .Type_) .identity) := by
  refine ⟨rfl, rfl, ?_⟩
  intro h
  have hx : Quote Closure.call 2 (.LambdaValue "x" (.Universe .Type_) .identity) =
      .ok (.LambdaTerm "x" (.Universe .Type_) (.BoundVar "x" 0)) := rfl
  have hy : Quote Closure.call 2 (.LambdaValue "y" (.Universe .Type_) .identity) =
      .ok (.LambdaTerm "y" (.Universe .Type_) (.BoundVar "y" 0)) := rfl
  rw [hx, hy] at h
  injection h with h
  injection h with h₁
  exact absurd h₁ (by decide)

/-- C5: for every quote context `q` and name `n`, `q.extend(n)` maps `n` to
`q[n] + 1` (Go `++` on `int`; 1 when `n` was absent, and the integer `q[n] + 1`
whenever that lies in the range of `int`), and maps every other name `m` to exactly
the entry `q` has for `m`: an absent name stays absent, a present one keeps its
count. -/
theorem extend_counts (q : quoteContext) (n : String) :
    (q.extend n).lookup n = some (goAdd (q.get n) 1)
      ∧ (q.lookup n = none → (q.extend n).lookup n = some 1)
      ∧ (InIntRange (q.get n + 1) → (q.extend n).get n = q.get n + 1)
      ∧ (∀ m, m ≠ n → (q.extend n).lookup m = q.lookup m)
      ∧ (∀ m, m ≠ n → (q.extend n).get m = q.get m) := by
  refine ⟨quoteContext.lookup_extend_same q n, ?_, ?_,
    fun m hm => quoteContext.lookup_extend_other q n m hm,
    fun m hm => quoteContext.get_extend_other q n m hm⟩
  · intro h
    rw [quoteContext.lookup_extend_same]
    simp only [quoteContext.get, h]
    decide
  · intro h
    rw [quoteContext.get_extend_same]
    exact wrapInt_of_inRange _ h

/-- C6, as amended: for every value `u` that is a `ToMapVal`, `FieldVal`,
`ProjectVal`, `UnionTypeVal` or `MergeVal`, with marker `s`, `Quote(u)` returns the
text literal term without chunks whose suffix is `s`; and for every value `w` of any
other variant, `Quote(u)` and `Quote(w)` return the same term exactly when `w` is the
text literal value without chunks whose suffix is `s`.  For every other `w` the
placeholder differs from what `Quote(w)` returns. -/
theorem Quote_unimplemented_distinct (call : κ → Value κ → Value κ) (u w : Value κ)
    (s : String) (hu : unimplementedMarker u = some s)
    (hw : unimplementedMarker w = none) :
    (∀ fuel, Quote call (fuel + 1) u = .ok (.TextLitTerm [] s))
      ∧ ((∃ t, (∃ fuel, Quote call fuel u = .ok t) ∧ (∃ fuel, Quote call fuel w = .ok t))
          ↔ w = .TextLitVal [] s) := by
  have hq : ∀ fuel, Quote call (fuel + 1) u = .ok (.TextLitTerm [] s) :=
    fun fuel => quoteWith_unimplemented call fuel _ u s hu
  refine ⟨hq, ?_, ?_⟩
  · rintro ⟨t, hut, hwt⟩
    have ht : t = .TextLitTerm [] s := QuotesTo.unique call hut ⟨1, hq 0⟩
    subst ht
    exact QuotesTo.textLit_of_supported call _ w hw s hwt
  · intro h
    subst h
    refine ⟨.TextLitTerm [] s, ⟨1, hq 0⟩, ⟨1, ?_⟩⟩
    rw [Quote, quoteWith]
    simp [quoteChunks]

/-- C6 as amended, at a `FieldVal` and the text literal that spells its marker. -/
theorem Quote_unimplemented_distinct_witness :
    (∀ fuel, Quote Closure.call (fuel + 1) (.FieldVal (.Universe .Type_) "f") =
        .ok (.TextLitTerm [] "FieldVal unimplemented"))
      ∧ ((∃ t, (∃ fuel, Quote Closure.call fuel (.FieldVal (.Universe .Type_) "f") = .ok t)
            ∧ (∃ fuel, Quote Closure.call fuel
                (.TextLitVal [] "FieldVal unimplemented") = .ok t))
          ↔ (Value.TextLitVal [] "FieldVal unimplemented" : Value Closure) =
              .TextLitVal [] "FieldVal unimplemented") :=
  Quote_unimplemented_distinct Closure.call (.FieldVal (.Universe .Type_) "f")
    (.TextLitVal [] "FieldVal unimplemented") "FieldVal unimplemented" rfl rfl

/-- C6 as stated fails: the `FieldVal` `u` is one of the five unimplemented variants,
the text literal `w` is a value of a supported variant, and `Quote` returns the same
term for both. -/
theorem Quote_placeholder_counterexample :
    unimplementedMarker (.FieldVal (.Universe .Type_) "f" : Value Closure) =
        some "FieldVal unimplemented"
      ∧ unimplementedMarker (.TextLitVal [] "FieldVal unimplemented" : Value Closure) = none
      ∧ Quote Closure.call 1 (.FieldVal (.Universe .Type_) "f") =
        .ok (.TextLitTerm [] "FieldVal unimplemented")
      ∧ Quote Closure.call 1 (.TextLitVal [] "FieldVal unimplemented") =
        .ok (.TextLitTerm [] "FieldVal unimplemented")
      ∧ Quote Closure.call 1 (.FieldVal (.Universe .Type_) "f") =
        Quote Closure.call 1 (.TextLitVal [] "FieldVal unimplemented") :=
  ⟨rfl, rfl, rfl, rfl, rfl⟩

/-- C7: for every quote context `ctx`, a `Universe`, `Builtin`, `FreeVar`,
`LocalVar`, `NaturalLit`, `IntegerLit`, `DoubleLit` or `BoolLit` quotes to itself
with its payload unchanged, whatever `ctx` is, and each of the ten built-in function
values quotes to the built-in term of the same name. -/
theorem quoteWith_self_quoting (call : κ → Value κ → Value κ) (fuel : Nat)
    (ctx : quoteContext) :
    (∀ u, quoteWith call (fuel + 1) ctx (.Universe u) = .ok (.Universe u))
      ∧ (∀ name, quoteWith call (fuel + 1) ctx (.Builtin name) = .ok (.Builtin name))
      ∧ (∀ name index,
          quoteWith call (fuel + 1) ctx (.FreeVar name index) = .ok (.FreeVar name index))
      ∧ (∀ name index,
          quoteWith call (fuel + 1) ctx (.LocalVar name index) = .ok (.LocalVar name index))
      ∧ (∀ n, quoteWith call (fuel + 1) ctx (.NaturalLit n) = .ok (.NaturalLit n))
      ∧ (∀ i, quoteWith call (fuel + 1) ctx (.IntegerLit i) = .ok (.IntegerLit i))
      ∧ (∀ bits, quoteWith call (fuel + 1) ctx (.DoubleLit bits) = .ok (.DoubleLit bits))
      ∧ (∀ b, quoteWith call (fuel + 1) ctx (.BoolLit b) = .ok (.BoolLit b))
      ∧ quoteWith call (fuel + 1) ctx .naturalEvenVal = .ok .NaturalEven
      ∧ quoteWith call (fuel + 1) ctx .naturalFoldVal = .ok .NaturalFold
      ∧ quoteWith call (fuel + 1) ctx .naturalIsZeroVal = .ok .NaturalIsZero
      ∧ quoteWith call (fuel + 1) ctx .naturalOddVal = .ok .NaturalOdd
      ∧ quoteWith call (fuel + 1) ctx .naturalShowVal = .ok .NaturalShow
      ∧ quoteWith call (fuel + 1) ctx .naturalSubtractVal = .ok .NaturalSubtract
      ∧ quoteWith call (fuel + 1) ctx .naturalToIntegerVal = .ok .NaturalToInteger
      ∧ quoteWith call (fuel + 1) ctx .integerShowVal = .ok .IntegerShow
      ∧ quoteWith call (fuel + 1) ctx .integerToDoubleVal = .ok .IntegerToDouble
      ∧ quoteWith call (fuel + 1) ctx .doubleShowVal = .ok .DoubleShow :=
  ⟨fun _ => rfl, fun _ => rfl, fun _ _ => rfl, fun _ _ => rfl, fun _ => rfl,
    fun _ => rfl, fun _ => rfl, fun _ => rfl, rfl, rfl, rfl, rfl, rfl, rfl, rfl, rfl,
    rfl, rfl⟩

/-- C8: neutral preservation.  `quoteWith(ctx, AppValue{Fn: f, Arg: a})` returns `t`
exactly when `t` is `AppTerm{Fn: f', Arg: a'}` with `f'` and `a'` what
`quoteWith(ctx, f)` and `quoteWith(ctx, a)` return, and `quoteWith(ctx, OpValue{o,
l, r})` returns `t` exactly when `t` is `OpTerm{o, l', r'}` with the same operator
code and the operands quoted in place; `Quote` of a free variable applied to
`NaturalLit(2)` is that application term. -/
theorem quoteWith_neutral (call : κ → Value κ → Value κ) (ctx : quoteContext) :
    (∀ f a t, QuotesTo call ctx (.AppValue f a) t ↔
        ∃ f' a', t = .AppTerm f' a' ∧ QuotesTo call ctx f f' ∧ QuotesTo call ctx a a')
      ∧ (∀ o l r t, QuotesTo call ctx (.OpValue o l r) t ↔
        ∃ l' r', t = .OpTerm o l' r' ∧ QuotesTo call ctx l l' ∧ QuotesTo call ctx r r')
      ∧ (∀ name index fuel,
          Quote call (fuel + 2) (.AppValue (.FreeVar name index) (.NaturalLit 2)) =
            .ok (.AppTerm (.FreeVar name index) (.NaturalLit 2))) :=
  ⟨QuotesTo.app_iff call ctx, QuotesTo.op_iff call ctx, fun _ _ _ => rfl⟩

/-- C9: list structure preservation.  For every `ctx` and every `NonEmptyListVal`
`es`, `quoteWith(ctx, es)` returns `t` exactly when `t` is a `NonEmptyList` of the
same length whose `k`-th element is what `quoteWith(ctx, es[k])` returns, for every
position `k`; a list of two literals quotes to the list of the same two literals in
the same order. -/
theorem quoteWith_nonEmptyList (call : κ → Value κ → Value κ) (ctx : quoteContext) :
    (∀ es t, QuotesTo call ctx (.NonEmptyListVal es) t ↔
        ∃ ts, t = .NonEmptyList ts ∧ es.length = ts.length ∧
          ∀ k (h₁ : k < es.length) (h₂ : k < ts.length),
            QuotesTo call ctx (es.get ⟨k, h₁⟩) (ts.get ⟨k, h₂⟩))
      ∧ (∀ (a b : Nat) fuel,
          Quote call (fuel + 2) (.NonEmptyListVal [.NaturalLit a, .NaturalLit b]) =
            .ok (.NonEmptyList [.NaturalLit a, .NaturalLit b])) := by
  refine ⟨fun es t => ?_, fun _ _ _ => rfl⟩
  rw [QuotesTo.nonEmptyList_iff]
  constructor
  · rintro ⟨ts, rfl, h⟩
    exact ⟨ts, rfl, List.forall₂_iff_get.1 h⟩
  · rintro ⟨ts, rfl, h⟩
    exact ⟨ts, rfl, List.forall₂_iff_get.2 h⟩

/-- C10: record key-set preservation.  For every `ctx` and every `RecordLitVal` `fs`
(a Go map, so with distinct keys), `quoteWith(ctx, fs)` returns `t` exactly when `t`
is a `RecordLit` with exactly the keys of `fs`, no key added or dropped, that maps
each key `k` to what `quoteWith(ctx, fs[k])` returns; likewise for `RecordTypeVal`
and `RecordType`. -/
theorem quoteWith_record (call : κ → Value κ → Value κ) (ctx : quoteContext)
    (fs : List (String × Value κ)) (hnd : (mapKeys fs).Nodup) :
    (∀ t, QuotesTo call ctx (.RecordLitVal fs) t ↔
        ∃ rt, t = .RecordLit rt ∧ mapKeys rt = mapKeys fs ∧
          ∀ k v, mapGet fs k = some v →
            ∃ t', mapGet rt k = some t' ∧ QuotesTo call ctx v t')
      ∧ (∀ t, QuotesTo call ctx (.RecordTypeVal fs) t ↔
        ∃ rt, t = .RecordType rt ∧ mapKeys rt = mapKeys fs ∧
          ∀ k v, mapGet fs k = some v →
            ∃ t', mapGet rt k = some t' ∧ QuotesTo call ctx v t') := by
  constructor
  · intro t
    rw [QuotesTo.recordLit_iff call ctx fs hnd]
    constructor
    · rintro ⟨rt, rfl, h⟩
      exact ⟨rt, rfl, (forall₂_iff_keys_lookup _ fs hnd rt).1 h⟩
    · rintro ⟨rt, rfl, h⟩
      exact ⟨rt, rfl, (forall₂_iff_keys_lookup _ fs hnd rt).2 h⟩
  · intro t
    rw [QuotesTo.recordType_iff call ctx fs hnd]
    constructor
    · rintro ⟨rt, rfl, h⟩
      exact ⟨rt, rfl, (forall₂_iff_keys_lookup _ fs hnd rt).1 h⟩
    · rintro ⟨rt, rfl, h⟩
      exact ⟨rt, rfl, (forall₂_iff_keys_lookup _ fs hnd rt).2 h⟩

/-- C10 at the record `{a = 1, b = True}` under the empty context. -/
theorem quoteWith_record_witness :
    (mapKeys [("a", (.NaturalLit 1 : Value Closure)), ("b", .BoolLit true)]).Nodup
      ∧ ((∀ t, QuotesTo Closure.call quoteContext.empty
            (.RecordLitVal [("a", .NaturalLit 1), ("b", .BoolLit true)]) t ↔
          ∃ rt, t = .RecordLit rt ∧
            mapKeys rt = mapKeys [("a", (.NaturalLit 1 : Value Closure)), ("b", .BoolLit true)] ∧
            ∀ k v, mapGet [("a", (.NaturalLit 1 : Value Closure)), ("b", .BoolLit true)] k
                = some v →
              ∃ t', mapGet rt k = some t' ∧ QuotesTo Closure.call quoteContext.empty v t')
        ∧ (∀ t, QuotesTo Closure.call quoteContext.empty
            (.RecordTypeVal [("a", .NaturalLit 1), ("b", .BoolLit true)]) t ↔
          ∃ rt, t = .RecordType rt ∧
            mapKeys rt = mapKeys [("a", (.NaturalLit 1 : Value Closure)), ("b", .BoolLit true)] ∧
            ∀ k v, mapGet [("a", (.NaturalLit 1 : Value Closure)), ("b", .BoolLit true)] k
                = some v →
              ∃ t', mapGet rt k = some t' ∧ QuotesTo Closure.call quoteContext.empty v t')) :=
  ⟨by decide, quoteWith_record Closure.call quoteContext.empty
    [("a", .NaturalLit 1), ("b", .BoolLit true)] (by decide)⟩

/-- C11: quote contexts are persistent.  On a heap holding the entries of a quote
context `q` at some reference, among other maps `pre` and `post`, the call
`q.extend(n)` leaves every map it found as it was, the receiver included, and adds
one map, the result, whose entries are those of `q.extend n`; so every name still
has in `q` the count it had before the call.  Any sequence of `extend` calls, on
whatever receivers, leaves the maps that existed before it unchanged. -/
theorem extend_persistent (pre post : MapHeap) (q : quoteContext) (n : String) :
    extendOnHeap (pre ++ q.entries :: post) pre.length n =
        ((pre ++ q.entries :: post) ++ [(q.extend n).entries],
          (pre ++ q.entries :: post).length)
      ∧ (∀ m, heapLoad (extendOnHeap (pre ++ q.entries :: post) pre.length n).1
          pre.length m = q.get m)
      ∧ (∀ (ops : List (Nat × String)) (h : MapHeap),
          (ops.foldl (fun hh op => (extendOnHeap hh op.1 op.2).1) h).take h.length = h) := by
  have hget : ((pre ++ q.entries :: post) ++ [[]]).getD pre.length [] = q.entries := by
    rw [List.append_assoc, List.cons_append, getD_append_cons]
  have heq : extendOnHeap (pre ++ q.entries :: post) pre.length n =
      ((pre ++ q.entries :: post) ++ [(q.extend n).entries],
        (pre ++ q.entries :: post).length) := by
    rw [extendOnHeap_eq, hget]
    have hext : (q.extend n).entries =
        mapSet (q.entries.foldl (fun acc e => acc.set e.1 e.2) quoteContext.empty).entries n
          (goAdd ((mapGet (q.entries.foldl (fun acc e => acc.set e.1 e.2)
            quoteContext.empty).entries n).getD 0) 1) := rfl
    rw [hext, copy_entries]
    rfl
  refine ⟨heq, ?_, extendOnHeap_prefix⟩
  intro m
  rw [heq]
  simp only [heapLoad]
  rw [List.append_assoc, List.cons_append, getD_append_cons]
  rfl

/-- C12: per-name index translation under arbitrary shadowing.  For every context
`ctx`, name `x`, index `i` and sequence of binder names `ns`, quoting
`QuoteVar{x, i}` under `ctx` extended successively by the names in `ns` returns
`BoundVar{x, ctx[x] + (number of occurrences of x in ns) - i - 1}`, the sum and the
differences being those of Go `int`s (the integer itself whenever it lies in the
range of `int`); a binder with another name does not change the index, and a
further binder named `x` raises it by exactly one (Go `+ 1`). -/
theorem quoteWith_QuoteVar_shadowing (call : κ → Value κ → Value κ) (fuel : Nat)
    (ctx : quoteContext) (x : String) (i : Int) (ns : List String) :
    quoteWith call (fuel + 1) (ns.foldl quoteContext.extend ctx) (.QuoteVar x i)
        = .ok (.BoundVar x (wrapInt (ctx.get x + (ns.count x : Int) - i - 1)))
      ∧ (InIntRange (ctx.get x + (ns.count x : Int) - i - 1) →
          quoteWith call (fuel + 1) (ns.foldl quoteContext.extend ctx) (.QuoteVar x i)
            = .ok (.BoundVar x (ctx.get x + (ns.count x : Int) - i - 1)))
      ∧ (∀ m, m ≠ x →
          quoteWith call (fuel + 1) (ctx.extend m) (.QuoteVar x i)
            = quoteWith call (fuel + 1) ctx (.QuoteVar x i))
      ∧ quoteWith call (fuel + 1) (ctx.extend x) (.QuoteVar x i)
          = .ok (.BoundVar x (goAdd (goSub (goSub (ctx.get x) i) 1) 1)) := by
  have key : quoteWith call (fuel + 1) (ns.foldl quoteContext.extend ctx) (.QuoteVar x i)
      = .ok (.BoundVar x (wrapInt (ctx.get x + (ns.count x : Int) - i - 1))) := by
    rw [quoteWith, goSub_goSub]
    have h := get_foldl_extend ns ctx x (-i - 1)
    have e₁ : (ns.foldl quoteContext.extend ctx).get x + (-i - 1) =
        (ns.foldl quoteContext.extend ctx).get x - i - 1 := by omega
    have e₂ : ctx.get x + (ns.count x : Int) + (-i - 1) =
        ctx.get x + (ns.count x : Int) - i - 1 := by omega
    rw [e₁, e₂] at h
    rw [h]
  refine ⟨key, ?_, ?_, ?_⟩
  · intro hr
    rw [key, wrapInt_of_inRange _ hr]
  · intro m hm
    rw [quoteWith, quoteWith, quoteContext.get_extend_other ctx m x (fun e => hm e.symm)]
  · rw [quoteWith, quoteContext.get_extend_same]
    congr 2
    unfold goSub goAdd wrapInt intBits
    omega

/-- C13: text literal preservation.  For every `ctx` and every `TextLitVal` with
chunks `cs` and suffix `sfx`, `quoteWith` returns `t` exactly when `t` is a
`TextLitTerm` with the same suffix and as many chunks, the `k`-th of which has the
prefix of the `k`-th chunk of `cs` unchanged and as `Expr` what `quoteWith(ctx, ·)`
returns on the `k`-th chunk's `Expr`. -/
theorem quoteWith_textLit (call : κ → Value κ → Value κ) (ctx : quoteContext)
    (cs : List (Chunk (Value κ))) (sfx : String) (t : Term) :
    QuotesTo call ctx (.TextLitVal cs sfx) t ↔
      ∃ ts, t = .TextLitTerm ts sfx ∧ cs.length = ts.length ∧
        ∀ k (h₁ : k < cs.length) (h₂ : k < ts.length),
          (ts.get ⟨k, h₂⟩).Prefix = (cs.get ⟨k, h₁⟩).Prefix ∧
            QuotesTo call ctx (cs.get ⟨k, h₁⟩).Expr (ts.get ⟨k, h₂⟩).Expr := by
  rw [QuotesTo.textLit_iff]
  constructor
  · rintro ⟨ts, rfl, h⟩
    exact ⟨ts, rfl, List.forall₂_iff_get.1 h⟩
  · rintro ⟨ts, rfl, h⟩
    exact ⟨ts, rfl, List.forall₂_iff_get.2 h⟩

/-- C14: for every `ctx` and whatever the contents of the value, quoting a
`ToMapVal`, `FieldVal`, `ProjectVal`, `UnionTypeVal` or `MergeVal` returns the text
literal term without chunks whose suffix is the marker of the variant; the five
markers are pairwise distinct; and the call does not panic. -/
theorem quoteWith_placeholders (call : κ → Value κ → Value κ) (fuel : Nat)
    (ctx : quoteContext) :
    (∀ r, quoteWith call (fuel + 1) ctx (.ToMapVal r) =
        .ok (.TextLitTerm [] "quote ToMapVal unimplemented"))
      ∧ (∀ r f, quoteWith call (fuel + 1) ctx (.FieldVal r f) =
        .ok (.TextLitTerm [] "FieldVal unimplemented"))
      ∧ (∀ r fs, quoteWith call (fuel + 1) ctx (.ProjectVal r fs) =
        .ok (.TextLitTerm [] "ProjectVal unimplemented"))
      ∧ (∀ alts, quoteWith call (fuel + 1) ctx (.UnionTypeVal alts) =
        .ok (.TextLitTerm [] "UnionTypeVal unimplemented"))
      ∧ (∀ h u, quoteWith call (fuel + 1) ctx (.MergeVal h u) =
        .ok (.TextLitTerm [] "MergeVal unimplemented"))
      ∧ ["quote ToMapVal unimplemented", "FieldVal unimplemented",
          "ProjectVal unimplemented", "UnionTypeVal unimplemented",
          "MergeVal unimplemented"].Nodup
      ∧ (∀ (u : Value κ) s msg, unimplementedMarker u = some s →
          quoteWith call (fuel + 1) ctx u ≠ .error (.panic msg)) := by
  refine ⟨fun _ => rfl, fun _ _ => rfl, fun _ _ => rfl, fun _ => rfl, fun _ _ => rfl,
    by decide, ?_⟩
  intro u s msg hu h
  rw [quoteWith_unimplemented call fuel ctx u s hu] at h
  cases h

/-- C15: context independence of a freshly bound variable.  For every quote context
`ctx`, whatever count it holds for the label, every label `l` and every domain `D`,
`quoteWith(ctx, LambdaValue{l, D, identity})` returns, one unit of fuel after the
domain has returned `ty`, the `LambdaTerm` labelled `l` with `Type` `ty` and body
`BoundVar{l, 0}`, and returns nothing else; with a universe as domain it returns
outright.  The same holds for a `PiValue` whose `Range` is the identity. -/
theorem quoteWith_identity_binder (call : κ → Value κ → Value κ) (idc : κ)
    (hid : ∀ a, call idc a = a) (ctx : quoteContext) (l : String) :
    (∀ D n ty, quoteWith call n ctx D = .ok ty →
        quoteWith call (n + 1) ctx (.LambdaValue l D idc) =
          .ok (.LambdaTerm l ty (.BoundVar l 0)))
      ∧ (∀ D n ty, quoteWith call n ctx D = .ok ty →
        quoteWith call (n + 1) ctx (.PiValue l D idc) =
          .ok (.PiTerm l ty (.BoundVar l 0)))
      ∧ (∀ fuel u, quoteWith call (fuel + 2) ctx (.LambdaValue l (.Universe u) idc) =
          .ok (.LambdaTerm l (.Universe u) (.BoundVar l 0)))
      ∧ (∀ fuel u, quoteWith call (fuel + 2) ctx (.PiValue l (.Universe u) idc) =
          .ok (.PiTerm l (.Universe u) (.BoundVar l 0)))
      ∧ (∀ D t, QuotesTo call ctx (.LambdaValue l D idc) t ↔
        ∃ ty, t = .LambdaTerm l ty (.BoundVar l 0) ∧ QuotesTo call ctx D ty)
      ∧ (∀ D t, QuotesTo call ctx (.PiValue l D idc) t ↔
        ∃ ty, t = .PiTerm l ty (.BoundVar l 0) ∧ QuotesTo call ctx D ty) := by
  have hbody : ∀ body, QuotesTo call (ctx.extend l) (call idc (.QuoteVar l (ctx.get l))) body
      ↔ body = .BoundVar l 0 := by
    intro body
    rw [hid, QuotesTo.quoteVar_iff, quoteContext.get_extend_same, fresh_index]
  have hstep : ∀ (D : Value κ) n ty, quoteWith call n ctx D = .ok ty →
      quoteWith call n (ctx.extend l) (call idc (.QuoteVar l (ctx.get l))) =
        .ok (.BoundVar l 0) := by
    intro D n ty h
    cases n with
    | zero => simp [quoteWith] at h
    | succ k => exact quoteWith_fresh_placeholder call idc hid k ctx l
  refine ⟨fun D n ty h => quoteWith_lambda_of call h (hstep D n ty h),
    fun D n ty h => quoteWith_pi_of call h (hstep D n ty h),
    fun fuel u => quoteWith_lambda_of call (n := fuel + 1) rfl
      (quoteWith_fresh_placeholder call idc hid fuel ctx l),
    fun fuel u => quoteWith_pi_of call (n := fuel + 1) rfl
      (quoteWith_fresh_placeholder call idc hid fuel ctx l), ?_, ?_⟩
  · intro D t
    rw [QuotesTo.lambda_iff]
    constructor
    · rintro ⟨ty, body, rfl, hty, hb⟩
      rw [(hbody body).1 hb]
      exact ⟨ty, rfl, hty⟩
    · rintro ⟨ty, rfl, hty⟩
      exact ⟨ty, _, rfl, hty, (hbody _).2 rfl⟩
  · intro D t
    rw [QuotesTo.pi_iff]
    constructor
    · rintro ⟨ty, body, rfl, hty, hb⟩
      rw [(hbody body).1 hb]
      exact ⟨ty, rfl, hty⟩
    · rintro ⟨ty, rfl, hty⟩
      exact ⟨ty, _, rfl, hty, (hbody _).2 rfl⟩

/-- C15 at the identity closure of `Closure`, under a context that has already
passed five binders named `x`: the lambda and the pi over `Type` return the binder
term with body `BoundVar{x, 0}`. -/
theorem quoteWith_identity_binder_witness :
    quoteWith Closure.call 2 ⟨[("x", 5)], by decide⟩
        (.LambdaValue "x" (.Universe .Type_) .identity) =
        .ok (.LambdaTerm "x" (.Universe .Type_) (.BoundVar "x" 0))
      ∧ quoteWith Closure.call 2 ⟨[("x", 5)], by decide⟩
        (.PiValue "x" (.Universe .Type_) .identity) =
        .ok (.PiTerm "x" (.Universe .Type_) (.BoundVar "x" 0)) :=
  ⟨(quoteWith_identity_binder Closure.call .identity (fun _ => rfl)
      ⟨[("x", 5)], by decide⟩ "x").2.2.1 0 .Type_,
    (quoteWith_identity_binder Closure.call .identity (fun _ => rfl)
      ⟨[("x", 5)], by decide⟩ "x").2.2.2.1 0 .Type_⟩

/-- C16: index range of a quoted placeholder.  For every quote context the quoter
can hold, the one built from the empty context by passing the binders `ns` (fewer
than `2 ^ 63` of them), every name `n` and every Go `int` `i ≥ 0`, the index of
`quoteWith(ctx, QuoteVar{n, i})` is `ctx[n] - i - 1`; it is non-negative if and only
if `i < ctx[n]`, and is then at most `ctx[n] - 1`; and `Quote`, which starts from
the empty context, returns the negative index `-i - 1`. -/
theorem quoteVar_index_range (call : κ → Value κ → Value κ) (fuel : Nat)
    (ns : List String) (hns : ns.length < 2 ^ 63) (n : String) (i : Int) (hi : 0 ≤ i)
    (hir : InIntRange i) :
    quoteWith call (fuel + 1) (ns.foldl quoteContext.extend quoteContext.empty)
        (.QuoteVar n i) =
        .ok (.BoundVar n
          ((ns.foldl quoteContext.extend quoteContext.empty).get n - i - 1))
      ∧ (0 ≤ (ns.foldl quoteContext.extend quoteContext.empty).get n - i - 1 ↔
          i < (ns.foldl quoteContext.extend quoteContext.empty).get n)
      ∧ (i < (ns.foldl quoteContext.extend quoteContext.empty).get n →
          (ns.foldl quoteContext.extend quoteContext.empty).get n - i - 1 ≤
            (ns.foldl quoteContext.extend quoteContext.empty).get n - 1)
      ∧ (ns.foldl quoteContext.extend quoteContext.empty).get n = (ns.count n : Int)
      ∧ Quote call (fuel + 1) (.QuoteVar n i) = .ok (.BoundVar n (-i - 1))
      ∧ -i - 1 < 0 := by
  have hget := get_foldl_extend_empty ns hns n
  have hcnt : ns.count n ≤ ns.length := List.count_le_length n ns
  have hidx : goSub (goSub ((ns.foldl quoteContext.extend quoteContext.empty).get n) i) 1
      = (ns.foldl quoteContext.extend quoteContext.empty).get n - i - 1 := by
    rw [goSub_goSub]
    apply wrapInt_of_inRange
    rw [hget]
    unfold InIntRange at *
    omega
  refine ⟨by rw [quoteWith_quoteVar_eq, hidx], by omega, fun _ => by omega, hget, ?_,
    by omega⟩
  rw [Quote, quoteWith_quoteVar_eq, goSub_goSub, get_empty]
  have : wrapInt (0 - i - 1) = -i - 1 := by
    rw [wrapInt_of_inRange]
    · omega
    · unfold InIntRange at *
      omega
  rw [this]

/-- C16 under the binders `x`, `y`, `x` and at the index `1`: the count of `x` is 2
and the quoted index is 0. -/
theorem quoteVar_index_range_witness :
    quoteWith Closure.call 1
        (["x", "y", "x"].foldl quoteContext.extend quoteContext.empty) (.QuoteVar "x" 1) =
        .ok (.BoundVar "x"
          ((["x", "y", "x"].foldl quoteContext.extend quoteContext.empty).get "x" - 1 - 1))
      ∧ (0 ≤ (["x", "y", "x"].foldl quoteContext.extend quoteContext.empty).get "x" - 1 - 1 ↔
          1 < (["x", "y", "x"].foldl quoteContext.extend quoteContext.empty).get "x")
      ∧ (1 < (["x", "y", "x"].foldl quoteContext.extend quoteContext.empty).get "x" →
          (["x", "y", "x"].foldl quoteContext.extend quoteContext.empty).get "x" - 1 - 1 ≤
            (["x", "y", "x"].foldl quoteContext.extend quoteContext.empty).get "x" - 1)
      ∧ (["x", "y", "x"].foldl quoteContext.extend quoteContext.empty).get "x" =
          ((["x", "y", "x"].count "x" : Nat) : Int)
      ∧ Quote Closure.call 1 (.QuoteVar "x" 1) = .ok (.BoundVar "x" (-1 - 1))
      ∧ (-1 - 1 : Int) < 0 :=
  quoteVar_index_range Closure.call 0 ["x", "y", "x"] (by decide) "x" 1 (by decide)
    (by decide)

end Claims

end Core

/-! # Properties of the node callbacks -/

namespace Parser

/-! ## Numerals -/

theorem digitsValue_ge (base : Nat) (hb : 1 ≤ base) (s : List UInt8) (n v : Nat)
    (h : digitsValue base s n = some v) : n ≤ v := by
  induction s generalizing n with
  | nil =>
    simp only [digitsValue, Option.some.injEq] at h
    omega
  | cons c rest ih =>
    simp only [digitsValue] at h
    cases hd : digitOf c with
    | none => simp [hd] at h
    | some d =>
      simp only [hd] at h
      by_cases hlt : d < base
      · simp only [hlt, if_true] at h
        have h₁ := ih _ h
        have h₂ : n * 1 ≤ n * base := Nat.mul_le_mul_left n hb
        omega
      · simp [hlt] at h

/-- On a string of digits whose value fits in a `uint64`, the loop of `ParseUint`
reports no error and returns that value. -/
theorem parseUintLoop_of_digitsValue (base : Nat) (hb : 1 ≤ base) (s : List UInt8)
    (n v : Nat) (h : digitsValue base s n = some v) (hv : v < 2 ^ 64) :
    parseUintLoop base (maxUint64 / base + 1) s n = (v, none) := by
  induction s generalizing n with
  | nil =>
    simp only [digitsValue, Option.some.injEq] at h
    simp [parseUintLoop, h]
  | cons c rest ih =>
    simp only [digitsValue] at h
    cases hd : digitOf c with
    | none => simp [hd] at h
    | some d =>
      simp only [hd] at h
      by_cases hlt : d < base
      · simp only [hlt, if_true] at h
        have hle : n * base + d ≤ v := digitsValue_ge base hb rest _ v h
        have hn : n ≤ maxUint64 / base := by
          rw [Nat.le_div_iff_mul_le (by omega)]
          unfold maxUint64
          omega
        have hmod₁ : n * base % 2 ^ 64 = n * base := Nat.mod_eq_of_lt (by omega)
        have hmod₂ : (n * base + d) % 2 ^ 64 = n * base + d := Nat.mod_eq_of_lt (by omega)
        have hc₁ : ¬ d ≥ base := by omega
        have hc₂ : ¬ n ≥ maxUint64 / base + 1 := by omega
        have hc₃ : ¬ (n * base + d < n * base ∨ n * base + d > maxUint64) := by
          unfold maxUint64
          omega
        simp only [parseUintLoop, hd, hc₁, hc₂, if_false, hmod₁, hmod₂, hc₃]
        exact ih _ h
      · simp [hlt] at h

theorem ParseUint_of_numeralValue (base : Nat) (hb : 1 ≤ base) (s : List UInt8) (v : Nat)
    (h : numeralValue base s = some v) (hv : v < 2 ^ 64) :
    ParseUint s base = (v, none) := by
  unfold numeralValue at h
  unfold ParseUint
  by_cases hs : s = []
  · simp [hs] at h
  · simp only [hs, if_false] at h ⊢
    exact parseUintLoop_of_digitsValue base hb s 0 v h hv

theorem length_of_numeralValue_drop (base k : Nat) (s : List UInt8) (v : Nat)
    (h : numeralValue base (s.drop k) = some v) : k ≤ s.length := by
  by_contra hc
  have : s.drop k = [] := List.drop_eq_nil_of_le (by omega)
  simp [numeralValue, this] at h

/-- C17: `parseNatural` reads the terminal in the base its token name announces.
For a first node that is a terminal named `DEC` with value `s` it returns the
base-10 value of `s`, for `OCT` the base-8 value of `s` without its first byte, for
`HEX` the base-16 value of `s` without its first two bytes, whenever that value
fits in 64 unsigned bits; for an empty node list, for a terminal with any other
name and for a first node that is not a terminal it returns `nil`. -/
theorem parseNatural_bases :
    (∀ s rest v, numeralValue 10 s = some v → v < 2 ^ 64 →
        parseNatural (.terminal ⟨"DEC", s⟩ :: rest) = .ok (.uint64 v))
      ∧ (∀ s rest v, numeralValue 8 (s.drop 1) = some v → v < 2 ^ 64 →
        parseNatural (.terminal ⟨"OCT", s⟩ :: rest) = .ok (.uint64 v))
      ∧ (∀ s rest v, numeralValue 16 (s.drop 2) = some v → v < 2 ^ 64 →
        parseNatural (.terminal ⟨"HEX", s⟩ :: rest) = .ok (.uint64 v))
      ∧ parseNatural [] = .ok .nil
      ∧ (∀ name s rest, name ≠ "DEC" → name ≠ "OCT" → name ≠ "HEX" →
        parseNatural (.terminal ⟨name, s⟩ :: rest) = .ok .nil)
      ∧ (∀ n rest, (∀ t, n ≠ .terminal t) → parseNatural (n :: rest) = .ok .nil) := by
  refine ⟨?_, ?_, ?_, rfl, ?_, ?_⟩
  · intro s rest v h hv
    simp only [parseNatural, if_true, ParseUint_of_numeralValue 10 (by decide) s v h hv]
  · intro s rest v h hv
    have hlen := length_of_numeralValue_drop 8 1 s v h
    have hne : ¬ ("OCT" = "DEC") := by decide
    simp only [parseNatural, hne, if_false, if_true, sliceFrom, hlen,
      ParseUint_of_numeralValue 8 (by decide) _ v h hv]
  · intro s rest v h hv
    have hlen := length_of_numeralValue_drop 16 2 s v h
    have hne₁ : ¬ ("HEX" = "DEC") := by decide
    have hne₂ : ¬ ("HEX" = "OCT") := by decide
    simp only [parseNatural, hne₁, hne₂, if_false, if_true, sliceFrom, hlen,
      ParseUint_of_numeralValue 16 (by decide) _ v h hv]
  · intro name s rest h₁ h₂ h₃
    simp only [parseNatural, h₁, h₂, h₃, if_false]
  · intro n rest hn
    cases n with
    | terminal t => exact absurd rfl (hn t)
    | _ => rfl

/-- C17 at the decimal numeral `42`, the octal numeral `017` and the hexadecimal
numeral `0x1F`. -/
theorem parseNatural_bases_witness :
    parseNatural [.terminal ⟨"DEC", [52, 50]⟩] = .ok (.uint64 42)
      ∧ parseNatural [.terminal ⟨"OCT", [48, 49, 55]⟩] = .ok (.uint64 15)
      ∧ parseNatural [.terminal ⟨"HEX", [48, 120, 49, 70]⟩] = .ok (.uint64 31) :=
  ⟨parseNatural_bases.1 [52, 50] [] 42 (by decide) (by decide),
    parseNatural_bases.2.1 [48, 49, 55] [] 15 (by decide) (by decide),
    parseNatural_bases.2.2.1 [48, 120, 49, 70] [] 31 (by decide) (by decide)⟩

/-- C18: `parseConst` agrees with `parseAtom` on the universe keywords.  From a
terminal and the comments after it `parseAtom` builds the `AtomNode` whose value is
the token name; on that node `parseConst` returns the universe `Type`, `Kind` or
`Sort` when the token name is `TYPE`, `KIND` or `SORT`; for an `AtomNode` with any
other value and for a first node that is not an `AtomNode` it returns `nil`. -/
theorem parseConst_parseAtom :
    (∀ (t : Terminal) cs more,
        parseAtom (.terminal t :: .comments cs :: more) = .ok (.atomNode ⟨t.Name, cs⟩))
      ∧ (∀ (t : Terminal) cs rest, t.Name = "TYPE" →
        parseConst (.atomNode ⟨t.Name, cs⟩ :: rest) = .ok (.const .Type_))
      ∧ (∀ (t : Terminal) cs rest, t.Name = "KIND" →
        parseConst (.atomNode ⟨t.Name, cs⟩ :: rest) = .ok (.const .Kind))
      ∧ (∀ (t : Terminal) cs rest, t.Name = "SORT" →
        parseConst (.atomNode ⟨t.Name, cs⟩ :: rest) = .ok (.const .Sort_))
      ∧ (∀ (a : AtomNode) rest, a.Value ≠ "TYPE" → a.Value ≠ "KIND" → a.Value ≠ "SORT" →
        parseConst (.atomNode a :: rest) = .ok .nil)
      ∧ (∀ n rest, (∀ a, n ≠ .atomNode a) → parseConst (n :: rest) = .ok .nil) := by
  refine ⟨fun _ _ _ => rfl, ?_, ?_, ?_, ?_, ?_⟩
  · intro t cs rest h
    simp only [parseConst, h, if_true]
  · intro t cs rest h
    have hne : ¬ ("KIND" = "TYPE") := by decide
    simp only [parseConst, h, hne, if_false, if_true]
  · intro t cs rest h
    have hne₁ : ¬ ("SORT" = "TYPE") := by decide
    have hne₂ : ¬ ("SORT" = "KIND") := by decide
    simp only [parseConst, h, hne₁, hne₂, if_false, if_true]
  · intro a rest h₁ h₂ h₃
    simp only [parseConst, h₁, h₂, h₃, if_false]
  · intro n rest hn
    cases n with
    | atomNode a => exact absurd rfl (hn a)
    | _ => rfl

/-- C18 at the three keyword terminals. -/
theorem parseConst_parseAtom_witness :
    parseConst [.atomNode ⟨"TYPE", []⟩] = .ok (.const .Type_)
      ∧ parseConst [.atomNode ⟨"KIND", []⟩] = .ok (.const .Kind)
      ∧ parseConst [.atomNode ⟨"SORT", []⟩] = .ok (.const .Sort_) :=
  ⟨parseConst_parseAtom.2.1 ⟨"TYPE", [84, 121, 112, 101]⟩ [] [] rfl,
    parseConst_parseAtom.2.2.1 ⟨"KIND", [75, 105, 110, 100]⟩ [] [] rfl,
    parseConst_parseAtom.2.2.2.1 ⟨"SORT", [83, 111, 114, 116]⟩ [] [] rfl⟩

end Parser
